import Mathlib

/-!
Verification development for the `highstake` real-time session runtime
(`server/app/services/`).  The Python source is shallowly embedded: pure
functions become Lean functions, the synchronous mutation blocks of the
coordinator become explicit state transformers, wall-clock instants become
rationals, and fallible constructs return `Option`/`Except`.  Each section
names the source file and lines it embeds.
-/

namespace Highstake

/-- Python truthiness of an `Optional[str]`: `None` and `""` are falsy. -/
def pyTruthyStr : Option String → Bool
  | none => false
  | some s => !(s == "")

/-! ## Data model (`services/session_context.py`)

`ExchangeOutcome`, `SessionState`, `ExchangeTurn`, `CandidateQuestion`,
`Exchange`, `PresenterProfile`, `AgentSessionContext`, `SessionContext`,
mirroring the dataclasses and enums of the source file.  Timestamps are
rationals standing for `time.time()` values. -/

/-- `ExchangeOutcome` enum (`session_context.py` lines 12-18). -/
inductive ExchangeOutcome
  | satisfied
  | follow_up
  | escalate
  | moderator_intervened
  | turn_limit
  | timeout
deriving DecidableEq, Repr

/-- `SessionState` enum (`session_context.py` lines 21-25). -/
inductive SessionState
  | presenting
  | qa_trigger
  | exchange
  | resolving
deriving DecidableEq, Repr

/-- `ExchangeTurn` dataclass (`session_context.py` lines 28-32). -/
structure ExchangeTurn where
  speaker : String
  text : String
  timestamp : ℚ
deriving DecidableEq, Repr

/-- `CandidateQuestion` dataclass (`session_context.py` lines 35-42).
Its generated `__init__` accepts exactly the fields below; in particular
there is NO `audio_urls` field. -/
structure CandidateQuestion where
  agent_id : String
  text : String
  target_claim : Option String := none
  slide_index : Option Int := none
  relevance_score : ℚ := 0
  audio_url : Option String := none
deriving DecidableEq, Repr

/-- `Exchange` dataclass (`session_context.py` lines 45-56).  The generated
`id` and default timestamps are explicit arguments here. -/
structure Exchange where
  id : String
  agent_id : String := ""
  question_text : String := ""
  target_claim : Option String := none
  slide_index : Int := 0
  turns : List ExchangeTurn := []
  outcome : Option ExchangeOutcome := none
  started_at : ℚ := 0
  resolved_at : Option ℚ := none
  evaluation_reasoning : Option String := none
deriving DecidableEq, Repr

/-- `Exchange.turn_count` property. -/
def Exchange.turn_count (e : Exchange) : ℕ := e.turns.length

/-- `Exchange.presenter_turn_count` property: number of turns whose speaker
is `"presenter"`. -/
def Exchange.presenter_turn_count (e : Exchange) : ℕ :=
  (e.turns.filter (fun t => t.speaker == "presenter")).length

/-- `Exchange.agent_turn_count` property. -/
def Exchange.agent_turn_count (e : Exchange) : ℕ :=
  (e.turns.filter (fun t => t.speaker == "agent")).length

/-- `Exchange.is_resolved` property: `outcome is not None`. -/
def Exchange.is_resolved (e : Exchange) : Bool := e.outcome.isSome

/-- `PresenterProfile` dataclass (`session_context.py` lines 92-98). -/
structure PresenterProfile where
  response_patterns : List String := []
  data_readiness : String := "unknown"
  behavioral_notes : List String := []
  recommended_strategy : String := "standard"
deriving DecidableEq, Repr

/-- `AgentSessionContext` dataclass (`session_context.py` lines 117-127). -/
structure AgentSessionContext where
  agent_id : String
  exchanges : List Exchange := []
  presenter_profile : PresenterProfile := {}
  challenged_claims : List String := []
deriving DecidableEq, Repr

/-- `AgentSessionContext.total_questions` property. -/
def AgentSessionContext.total_questions (a : AgentSessionContext) : ℕ :=
  a.exchanges.length

/-- `SessionContext` dataclass (`session_context.py` lines 147-160).
`get_agent_context` auto-creates a fresh `AgentSessionContext` on first
read, so the `agent_contexts` dict is modeled as a total function whose
default value is that fresh context. -/
structure SessionContext where
  session_id : String
  state : SessionState := SessionState.presenting
  active_exchange : Option Exchange := none
  agent_contexts : String → AgentSessionContext :=
    fun aid => { agent_id := aid }
  completed_exchanges : List Exchange := []

/-- `SessionContext.get_agent_context` (`session_context.py` lines 157-160):
returns the per-agent context, auto-creating the default entry. -/
def SessionContext.get_agent_context (ctx : SessionContext) (aid : String) :
    AgentSessionContext :=
  ctx.agent_contexts aid

/-! ## Presenter-profile update (`services/agent_engine.py` lines 1144-1194)

`SessionCoordinator._update_presenter_profile`, a deterministic function of
the resolved exchange's outcome. -/

/-- `_update_presenter_profile` applied to the agent's profile; the exchange
already carries its outcome when this runs. -/
def update_presenter_profile (profile : PresenterProfile) (e : Exchange) :
    PresenterProfile :=
  match e.outcome with
  | some ExchangeOutcome.satisfied =>
      if e.presenter_turn_count ≤ 1 then
        { profile with
            response_patterns :=
              profile.response_patterns ++ ["Gave strong, direct answer"],
            data_readiness := "strong" }
      else
        { profile with
            response_patterns := profile.response_patterns ++
              ["Needed follow-up but eventually provided good answer"],
            data_readiness := "moderate" }
  | some ExchangeOutcome.moderator_intervened =>
      { profile with
          response_patterns := profile.response_patterns ++
            ["Could not satisfactorily address the question"],
          data_readiness := "weak",
          behavioral_notes := profile.behavioral_notes ++
            ["Struggled with: " ++ e.question_text.take 80] }
  | some ExchangeOutcome.turn_limit =>
      { profile with
          response_patterns := profile.response_patterns ++
            ["Could not satisfactorily address the question"],
          data_readiness := "weak",
          behavioral_notes := profile.behavioral_notes ++
            ["Struggled with: " ++ e.question_text.take 80] }
  | some ExchangeOutcome.escalate =>
      { profile with
          response_patterns := profile.response_patterns ++
            ["Response triggered escalation"],
          recommended_strategy := "push_harder" }
  | some ExchangeOutcome.timeout =>
      { profile with
          response_patterns := profile.response_patterns ++
            ["Did not respond to the question"],
          data_readiness := "weak",
          behavioral_notes := profile.behavioral_notes ++
            ["No response to: " ++ e.question_text.take 80] }
  | _ => profile

/-! ## Exchange resolution (`services/agent_engine.py` lines 866-954)

`SessionCoordinator._resolve_exchange(exchange, outcome)`: stamps the
outcome and `resolved_at`, appends the exchange to the owning agent's
`exchanges` (and its `target_claim`, when truthy, to `challenged_claims`),
appends to `completed_exchanges`, clears `active_exchange`, passes through
state `RESOLVING` and finally sets state `PRESENTING`.  The function below
is the net effect on the session context of the whole call (the timer and
debounce bookkeeping and the emits carry no session-context state). -/

/-- `_resolve_exchange`: returns the updated session context together with
the stamped exchange that was appended. -/
def resolve_exchange (ctx : SessionContext) (e : Exchange)
    (outcome : ExchangeOutcome) (now : ℚ) : SessionContext × Exchange :=
  let e' : Exchange := { e with outcome := some outcome, resolved_at := some now }
  let aid := e.agent_id
  let actx := ctx.get_agent_context aid
  let actx : AgentSessionContext :=
    { actx with
        exchanges := actx.exchanges ++ [e'],
        challenged_claims :=
          match e'.target_claim with
          | some tc =>
              if tc ≠ "" then actx.challenged_claims ++ [tc]
              else actx.challenged_claims
          | none => actx.challenged_claims }
  let actx : AgentSessionContext :=
    { actx with
        presenter_profile := update_presenter_profile actx.presenter_profile e' }
  ({ ctx with
      agent_contexts := fun a => if a = aid then actx else ctx.agent_contexts a,
      completed_exchanges := ctx.completed_exchanges ++ [e'],
      active_exchange := none,
      state := SessionState.presenting },
   e')

/-! ## Hand-raise queue (`services/agent_engine.py` lines 285-377)

The queue is a list of `(agent_id, CandidateQuestion, raised_at)` triples.
`_on_hand_raised` and `_on_hand_lowered` read `event.data.get("agent_id")`;
a missing agent id is modeled by the empty string (both `None` and `""` are
falsy and take the early return). -/

/-- One entry of `self._hand_raise_queue`.  The `question` field is
`event.data.get("question")`, which may be absent. -/
structure QueueEntry where
  agent_id : String
  question : Option CandidateQuestion
  raised_at : ℚ
deriving DecidableEq, Repr

instance : Inhabited QueueEntry := ⟨⟨"", none, 0⟩⟩

/-- `_on_hand_raised` (lines 285-304): no-op when the agent id is falsy or
the agent is already queued, otherwise append. -/
def on_hand_raised (queue : List QueueEntry) (agent_id : String)
    (question : Option CandidateQuestion) (now : ℚ) : List QueueEntry :=
  if agent_id = "" then queue
  else if queue.any (fun en => en.agent_id == agent_id) then queue
  else queue ++ [⟨agent_id, question, now⟩]

/-- `_on_hand_lowered` (lines 306-319): no-op when the agent id is falsy,
otherwise keep every entry whose agent differs. -/
def on_hand_lowered (queue : List QueueEntry) (agent_id : String) :
    List QueueEntry :=
  if agent_id = "" then queue
  else queue.filter (fun en => en.agent_id != agent_id)

/-- Selection score of one queue entry (lines 343-357):
`relevance_score` (or `0.5` for a missing candidate) minus `0.3` per prior
question of the agent, plus `1/(now - raised_at + 1)`.  The float constants
are embedded as exact rationals. -/
def queue_score (total_questions : String → ℕ) (now : ℚ) (en : QueueEntry) : ℚ :=
  let priority : ℚ :=
    match en.question with
    | some c => c.relevance_score
    | none => 1 / 2
  priority - (total_questions en.agent_id : ℚ) * (3 / 10)
    + 1 / (now - en.raised_at + 1)

/-- Index of the first maximal element of a list of scores.  Python's
`list.sort(key=..., reverse=True)` is stable, so `scored[0]` after the sort
is precisely the first entry attaining the maximal score. -/
def argmaxIdx : List ℚ → ℕ
  | [] => 0
  | x :: xs =>
    match xs[argmaxIdx xs]? with
    | none => 0
    | some y => if x < y then argmaxIdx xs + 1 else 0

/-- `_select_next_from_queue` (lines 331-377): `None` on an empty queue,
`pop(0)` on a singleton, otherwise remove and return the first entry of
maximal score.  `self._hand_raise_queue.remove(best)` removes the first
entry equal to the selected one; under the per-agent uniqueness invariant
(agent ids are part of the triples) that is the entry at the argmax
index. -/
def select_next_from_queue (total_questions : String → ℕ) (now : ℚ)
    (queue : List QueueEntry) : Option (QueueEntry × List QueueEntry) :=
  match queue with
  | [] => none
  | [x] => some (x, [])
  | _ =>
    let i := argmaxIdx (queue.map (queue_score total_questions now))
    some (queue.getD i default, queue.eraseIdx i)

/-- States of the hand-raise queue reachable through its three mutating
operations, starting from the empty queue (the queue is created empty in
`SessionCoordinator.__init__`, line 83). -/
inductive QueueReachable : List QueueEntry → Prop
  | init : QueueReachable []
  | raise (q : List QueueEntry) (aid : String) (c : Option CandidateQuestion)
      (now : ℚ) : QueueReachable q → QueueReachable (on_hand_raised q aid c now)
  | lower (q : List QueueEntry) (aid : String) :
      QueueReachable q → QueueReachable (on_hand_lowered q aid)
  | select (tq : String → ℕ) (now : ℚ) (q : List QueueEntry)
      (sel : QueueEntry) (rest : List QueueEntry) :
      QueueReachable q → select_next_from_queue tq now q = some (sel, rest) →
      QueueReachable rest

/-- At most one queue entry per agent. -/
def UniquePerAgent (q : List QueueEntry) : Prop :=
  ∀ aid : String, (q.countP (fun en => en.agent_id == aid)) ≤ 1

/-! ## Cooldown check (`services/agent_runner.py` lines 514-523 and 243-250)

`AgentRunner._evaluate_should_ask` opens with the cooldown test

  `elapsed = time.time() - self._session_start`
  `if self._last_question_time > 0:`
  `    if elapsed - self._last_question_time < self._cooldown_secs: return False`

while `_on_event` stores `self._last_question_time = time.time()` — a
wall-clock instant — when the agent is called on.  The test therefore
compares the session-relative `elapsed` against an absolute timestamp. -/

/-- `self._cooldown_secs` (`agent_runner.py` line 171). -/
def cooldown_secs : ℚ := 15

/-- The cooldown test of `_evaluate_should_ask`, exactly as written:
`true` means the evaluation returns `False` (the agent is suppressed). -/
def cooldown_suppresses (now session_start last_question_time : ℚ) : Bool :=
  decide (0 < last_question_time) &&
    decide ((now - session_start) - last_question_time < cooldown_secs)

/-! ## CandidateQuestion construction (`services/agent_runner.py` lines 684-692)

`AgentRunner._generate_question` ends with

  `candidate = CandidateQuestion(agent_id=..., text=..., target_claim=...,`
  `    slide_index=..., audio_url=..., audio_urls=audio_urls,`
  `    relevance_score=0.8)`

A Python dataclass call raises `TypeError` whenever a keyword argument is
not a parameter of the generated `__init__`. -/

/-- Parameter names of the generated `CandidateQuestion.__init__`
(`session_context.py` lines 35-42). -/
def candidate_question_init_params : List String :=
  ["agent_id", "text", "target_claim", "slide_index", "relevance_score",
   "audio_url"]

/-- Keyword-argument names passed at the `CandidateQuestion(...)` call in
`_generate_question` (`agent_runner.py` lines 684-692). -/
def generate_question_call_kwargs : List String :=
  ["agent_id", "text", "target_claim", "slide_index", "audio_url",
   "audio_urls", "relevance_score"]

/-- Python call semantics: the call succeeds iff every keyword argument
names an `__init__` parameter; otherwise `TypeError` is raised. -/
def dataclass_call_ok (params kwargs : List String) : Bool :=
  kwargs.all (fun k => params.contains k)

/-- Python error raised by a failing call. -/
inductive PyErr
  | typeError
deriving DecidableEq, Repr

/-- Tail of `_generate_question`: given the already-computed pieces, build
the candidate.  The construction raises whenever the keyword arguments do
not fit `CandidateQuestion.__init__`; on success the listed fields would be
populated (an `audio_urls` field cannot be, since the dataclass lacks
it). -/
def generate_question_build_candidate (aid text : String)
    (target_claim : Option String) (slide_index : Option Int)
    (audio_url : Option String) : Except PyErr CandidateQuestion :=
  if dataclass_call_ok candidate_question_init_params
      generate_question_call_kwargs then
    Except.ok
      { agent_id := aid, text := text, target_claim := target_claim,
        slide_index := slide_index, relevance_score := 8 / 10,
        audio_url := audio_url }
  else Except.error PyErr.typeError

/-! ## Exchange assessment (`services/agent_engine.py` lines 639-787 and
`services/agent_runner.py` lines 723-794)

`_run_exchange_assessment(exchange, full_response)` records the presenter
turn, checks the per-intensity turn limit, and otherwise runs the agent's
`handle_exchange_follow_up` under `asyncio.wait_for(..., timeout=20.0)`.
The LLM interaction is abstracted by the observable behaviour of the
awaited call: it times out, raises, or returns `Optional[dict]`. -/

/-- `self._turn_limits` lookup with the `dict.get(intensity, 3)` default
(`agent_engine.py` lines 92 and 655-657). -/
def turn_limits (intensity : String) : ℕ :=
  if intensity = "friendly" then 2
  else if intensity = "moderate" then 3
  else if intensity = "adversarial" then 4
  else 3

/-- The `asyncio.wait_for` timeout around `handle_exchange_follow_up`
(`agent_engine.py` line 714). -/
def exchange_assessment_timeout_secs : ℚ := 20

/-- The JSON dict returned by `LLMClient.evaluate_response`, with each key
read through `.get`: `none` models a missing key; for `follow_up` a stored
JSON `null` also reads back as `none` (both are falsy in the check
below). -/
structure EvalVerdict where
  verdict : Option String
  reasoning : Option String
  follow_up : Option String
deriving DecidableEq, Repr

/-- ASCII uppercasing, modeling `str.upper()` on the verdict strings. -/
def asciiUpperChar (c : Char) : Char :=
  if 'a' ≤ c ∧ c ≤ 'z' then Char.ofNat (c.toNat - 32) else c

/-- `str.upper()` restricted to ASCII, acting characterwise. -/
def pyUpper (s : String) : String := String.mk (s.toList.map asciiUpperChar)

/-- The non-`None` result of `handle_exchange_follow_up`: the dict
`{"text": follow_up, "audio_url": None, "audio_urls": [], "reasoning": r}`. -/
structure FollowUpResult where
  text : String
  reasoning : String
deriving DecidableEq, Repr

/-- `AgentRunner.handle_exchange_follow_up` (`agent_runner.py` lines
723-794), as a function of the outcome of `self.llm.evaluate_response`:
an exception yields `None`; verdict `SATISFIED` (after `.upper()`) yields
`None`; `FOLLOW_UP`/`ESCALATE` with a falsy `follow_up` yields `None`,
with a non-empty one yields the follow-up dict; any other verdict yields
`None`. -/
def handle_exchange_follow_up (llm : Except PyErr EvalVerdict) :
    Option FollowUpResult :=
  match llm with
  | Except.error _ => none
  | Except.ok ev =>
    let verdict := pyUpper (ev.verdict.getD "SATISFIED")
    if verdict = "SATISFIED" then none
    else if verdict = "FOLLOW_UP" ∨ verdict = "ESCALATE" then
      let fu := ev.follow_up.getD ""
      if fu = "" then none
      else some { text := fu, reasoning := ev.reasoning.getD "" }
    else none

/-- Observable behaviour of the awaited assessment call
(`asyncio.wait_for(runner.handle_exchange_follow_up(...), timeout=20.0)`). -/
inductive AssessmentCall
  | times_out
  | raises
  | returns (r : Option FollowUpResult)
deriving DecidableEq, Repr

/-- Net effect of one `_run_exchange_assessment` run on the exchange and
the coordinator: the final turn list, the outcome passed to
`_resolve_exchange` (`none` when the exchange stays open), whether the
agent's LLM assessment was awaited at all, and whether the exchange timer
was restarted for a follow-up. -/
structure AssessmentEffects where
  turns : List ExchangeTurn
  resolution : Option ExchangeOutcome
  llm_called : Bool
  timer_restarted : Bool
deriving DecidableEq, Repr

/-- `_run_exchange_assessment` (`agent_engine.py` lines 639-787): append the
presenter turn; resolve `TURN_LIMIT` at the turn limit without the LLM;
resolve `SATISFIED` when the runner is missing, the call times out, raises,
or returns `None`; on a follow-up append the agent turn and restart the
exchange timer. -/
def run_exchange_assessment (e : Exchange) (full_response : String)
    (intensity : String) (runner_exists : Bool) (call : AssessmentCall)
    (now : ℚ) : AssessmentEffects :=
  let turns1 := e.turns ++ [⟨"presenter", full_response, now⟩]
  let e1 : Exchange := { e with turns := turns1 }
  let max_turns := turn_limits intensity
  if max_turns ≤ e1.presenter_turn_count then
    { turns := turns1, resolution := some ExchangeOutcome.turn_limit,
      llm_called := false, timer_restarted := false }
  else if runner_exists = false then
    { turns := turns1, resolution := some ExchangeOutcome.satisfied,
      llm_called := false, timer_restarted := false }
  else
    match call with
    | AssessmentCall.times_out =>
        { turns := turns1, resolution := some ExchangeOutcome.satisfied,
          llm_called := true, timer_restarted := false }
    | AssessmentCall.raises =>
        { turns := turns1, resolution := some ExchangeOutcome.satisfied,
          llm_called := true, timer_restarted := false }
    | AssessmentCall.returns none =>
        { turns := turns1, resolution := some ExchangeOutcome.satisfied,
          llm_called := true, timer_restarted := false }
    | AssessmentCall.returns (some fu) =>
        { turns := turns1 ++ [⟨"agent", fu.text, now⟩], resolution := none,
          llm_called := true, timer_restarted := true }

/-! ## Voice-activity detection (`services/live_transcription.py`)

Both STT backends run the same manual VAD over the RMS of each 16-bit PCM
frame: `LiveTranscriptionService.send_audio` (lines 270-369, nominal path
with a connected session and no transport errors) and
`WhisperTranscriptionService.send_audio` (lines 560-610).  A frame is its
list of signed 16-bit samples.  `_pcm_rms` returns
`sqrt(sum(s*s)/n)` (and `0.0` for an empty frame); a comparison
`rms > t` with `t ≥ 0` is embedded exactly as the square comparison
`t^2 * n < sum(s*s)`. -/

/-- `_RMS_SPEECH_THRESHOLD` (line 14). -/
def RMS_SPEECH_THRESHOLD : ℕ := 500

/-- `_RMS_SILENCE_THRESHOLD` (line 15). -/
def RMS_SILENCE_THRESHOLD : ℕ := 300

/-- `_SILENCE_CHUNKS_FOR_END` (line 16). -/
def SILENCE_CHUNKS_FOR_END : ℕ := 8

/-- Sum of squared samples of a PCM frame. -/
def sumSq (frame : List ℤ) : ℤ := (frame.map (fun s => s * s)).sum

/-- `_pcm_rms(frame) > thr` for a nonnegative threshold: false on an empty
frame (rms 0), else the exact square comparison. -/
def rmsGt (frame : List ℤ) (thr : ℕ) : Bool :=
  decide (0 < frame.length) && decide ((thr : ℤ) ^ 2 * frame.length < sumSq frame)

/-- `_pcm_rms(frame) < thr` for a positive threshold: true on an empty
frame (rms 0), else the exact square comparison. -/
def rmsLt (frame : List ℤ) (thr : ℕ) : Bool :=
  decide (frame.length = 0) || decide (sumSq frame < (thr : ℤ) ^ 2 * frame.length)

/-- VAD state: `self._speaking` and `self._silence_count`. -/
structure VadState where
  speaking : Bool
  silence_count : ℕ
deriving DecidableEq, Repr

/-- Observable VAD actions: `activity_start` (Gemini `ActivityStart` /
Whisper buffer start), `forward` (Gemini audio blob send / Whisper buffer
extend), `activity_end` (Gemini `ActivityEnd` / Whisper enqueue of the
utterance). -/
inductive VadAction
  | activity_start
  | forward
  | activity_end
deriving DecidableEq, Repr

/-- Shared tail of `LiveTranscriptionService.send_audio` once in the
speaking state (lines 332-359): forward the frame, then update the silence
counter, ending the activity after `SILENCE_CHUNKS_FOR_END` silent frames. -/
def vad_speaking_phase (st : VadState) (frame : List ℤ)
    (acc : List VadAction) : VadState × List VadAction :=
  let acc := acc ++ [VadAction.forward]
  if rmsLt frame RMS_SILENCE_THRESHOLD then
    let c := st.silence_count + 1
    if SILENCE_CHUNKS_FOR_END ≤ c then
      (⟨false, 0⟩, acc ++ [VadAction.activity_end])
    else (⟨st.speaking, c⟩, acc)
  else (⟨st.speaking, 0⟩, acc)

/-- `LiveTranscriptionService.send_audio` (lines 270-369), nominal path:
the session is connected and no send raises.  In silence, a frame above the
speech threshold starts the activity and falls through to the send path;
any other frame is dropped. -/
def live_send_audio_vad (st : VadState) (frame : List ℤ) :
    VadState × List VadAction :=
  if st.speaking = false then
    if rmsGt frame RMS_SPEECH_THRESHOLD then
      vad_speaking_phase ⟨true, 0⟩ frame [VadAction.activity_start]
    else (st, [])
  else vad_speaking_phase st frame []

/-- `WhisperTranscriptionService.send_audio` (lines 560-610): identical VAD;
on speech start the handler clears the buffer, appends the frame and
returns; while speaking it appends the frame and updates the counter. -/
def whisper_send_audio_vad (st : VadState) (frame : List ℤ) :
    VadState × List VadAction :=
  if st.speaking = false then
    if rmsGt frame RMS_SPEECH_THRESHOLD then
      (⟨true, 0⟩, [VadAction.activity_start, VadAction.forward])
    else (st, [])
  else
    let acc := [VadAction.forward]
    if rmsLt frame RMS_SILENCE_THRESHOLD then
      let c := st.silence_count + 1
      if SILENCE_CHUNKS_FOR_END ≤ c then
        (⟨false, 0⟩, acc ++ [VadAction.activity_end])
      else (⟨st.speaking, c⟩, acc)
    else (⟨st.speaking, 0⟩, acc)

/-! ## Coordinator interleaving (`services/agent_engine.py`)

The coordinator's shared fields `session_context.state`,
`session_context.active_exchange` and `_last_exchange_resolved_at` are
mutated by several asyncio tasks.  Under cooperative scheduling, the
synchronous blocks between `await` points execute atomically; the blocks
below embed exactly those mutation blocks, and a configuration records each
task's program counter (every counter boundary is a suspension point of the
source).

Moderator-loop task (`_moderator_loop`, lines 381-411, and the prefix of
`_call_on_agent`, lines 413-497):
  * block M0 (pc 0 → 1): the loop-body guard `state == EXCHANGE → continue`,
    the post-exchange cooldown check on `_last_exchange_resolved_at`,
    the (uncontended) queue-lock acquisition, `_select_next_from_queue`,
    the candidate check, and `self.session_context.state = QA_TRIGGER`
    (line 429) — all synchronous.  The hand-raise queue is assumed
    non-empty with a valid candidate, so a selection succeeds.
  * suspension: `log_moderator`, `_emit_moderator_transition` (TTS),
    `emit("agent_question")`, `_store_transcript_entry`, two
    `event_bus.publish` awaits (lines 432-484).
  * block M1 (pc 1 → 2): create the `Exchange`,
    `self.session_context.active_exchange = exchange` and
    `self.session_context.state = EXCHANGE` (lines 487-497).

Resolver task (`_resolve_exchange`, lines 866-954, reached from
`_run_exchange_assessment` or the timeout handler; here resolving the
exchange that is active initially):
  * block R0 (pc 0 → 1): lines 874-903 — timer/debounce bookkeeping, stamp
    the outcome, append to the agent context and `completed_exchanges`,
    `active_exchange = None`, `state = RESOLVING` (all synchronous;
    `asyncio.create_task` does not yield).
  * suspension: `emit("exchange_resolved")` (line 907).
  * block R1 (pc 1 → 2): `_last_exchange_resolved_at = time.time()` and
    `state = PRESENTING` (lines 925-926).
  * suspension: `emit("session_state")` (line 929), then the
    `EXCHANGE_RESOLVED` publish. -/

/-- The shared coordinator fields touched by the race.  `active_exchange`
holds the id of the active `Exchange`, `none` for Python `None` (an
`Option`, so "at most one active exchange" holds by construction). -/
structure CoordShared where
  state : SessionState
  active_exchange : Option ℕ
  last_exchange_resolved_at : ℚ
deriving DecidableEq, Repr

/-- A configuration: the shared fields plus the program counter of the
moderator-loop task and of the resolver task.  Every configuration reached
after a block is at a suspension point of the source. -/
structure CoordConfig where
  shared : CoordShared
  mod_pc : ℕ
  res_pc : ℕ
deriving DecidableEq, Repr

/-- `self._post_exchange_pause_secs` (line 99). -/
def post_exchange_pause_secs : ℚ := 5

/-- Run the moderator task's next synchronous block (`now` is the
`time.time()` at which the block executes, `eid` the id of the exchange the
block creates). -/
def mod_step (now : ℚ) (eid : ℕ) (c : CoordConfig) : CoordConfig :=
  match c.mod_pc with
  | 0 =>
    if c.shared.state = SessionState.exchange then c
    else if 0 < c.shared.last_exchange_resolved_at ∧
        now - c.shared.last_exchange_resolved_at < post_exchange_pause_secs then c
    else
      { c with shared := { c.shared with state := SessionState.qa_trigger },
               mod_pc := 1 }
  | 1 =>
    { c with
        shared := { c.shared with active_exchange := some eid,
                                  state := SessionState.exchange },
        mod_pc := 2 }
  | _ => c

/-- Run the resolver task's next synchronous block. -/
def res_step (now : ℚ) (c : CoordConfig) : CoordConfig :=
  match c.res_pc with
  | 0 =>
    { c with
        shared := { c.shared with active_exchange := none,
                                  state := SessionState.resolving },
        res_pc := 1 }
  | 1 =>
    { c with
        shared := { c.shared with last_exchange_resolved_at := now,
                                  state := SessionState.presenting },
        res_pc := 2 }
  | _ => c

/-- The session-context invariant claimed to hold at every suspension
point: `state == EXCHANGE ⇔ active_exchange ≠ null`. -/
def CoordInv (s : CoordShared) : Prop :=
  s.state = SessionState.exchange ↔ s.active_exchange ≠ none

instance (s : CoordShared) : Decidable (CoordInv s) := by
  unfold CoordInv; infer_instance

/-- Initial configuration of the race: exchange 1 is active and in state
`EXCHANGE` (no exchange has resolved yet, so
`_last_exchange_resolved_at == 0`), the resolver task is entering
`_resolve_exchange(exchange_1, SATISFIED)` and the moderator loop is at the
top of its body with another agent's hand raised. -/
def race_init : CoordConfig :=
  { shared := { state := SessionState.exchange, active_exchange := some 1,
                last_exchange_resolved_at := 0 },
    mod_pc := 0, res_pc := 0 }

/-- The interleaving that breaks the invariant: the resolver runs block R0
and suspends in the `exchange_resolved` emit; the moderator tick fires, its
guard sees `state == RESOLVING` and a zero cooldown stamp, selects the
queued agent and runs M0 then M1, opening exchange 2; the resolver then
resumes with block R1, overwriting `state` to `PRESENTING` while
`active_exchange` holds exchange 2. -/
def race_trace : CoordConfig :=
  res_step 103 (mod_step 102 2 (mod_step 101 2 (res_step 100 race_init)))

/-! ## Sentence splitting (`services/llm_client.py` lines 10-57)

`split_sentences(text, min_chunk_len=10)` splits at the matches of the
regex `([.?!])(?:\s|$)` (scanning left to right, non-overlapping: a match
covers the punctuation character and the following whitespace character
when one is present), skips candidates ending in one of the canonical
abbreviations, merges candidates shorter than `min_chunk_len` into the
previous sentence, and appends the stripped remainder.  Python strings are
modeled as `List Char`; `\s` and `str.strip()` use the ASCII whitespace
class below.  Since the regex `$` (no `MULTILINE`) can only contribute a
match at the true end of the string (a trailing newline is consumed by the
`\s` branch first), a match ends either right after a whitespace character
or at the end of the string. -/

/-- ASCII whitespace, the characters matched by `\s` and stripped by
`str.strip()`. -/
def pyWs (c : Char) : Bool :=
  c == ' ' || c == '\t' || c == '\n' || c == '\r' || c == '\x0b' || c == '\x0c'

/-- `str.strip()`. -/
def pyStrip (l : List Char) : List Char :=
  ((l.dropWhile pyWs).reverse.dropWhile pyWs).reverse

/-- The characters of the `_SENTENCE_END` class `[.?!]`. -/
def isSentPunct (c : Char) : Bool := c == '.' || c == '?' || c == '!'

/-- End positions of the matches of `_SENTENCE_END.finditer(text)`: a match
at position `i` needs `text[i] ∈ .?!` and either the end of the string
(`$`, match end `i+1`) or a following whitespace character (`\s`, match end
`i+2`); scanning resumes at the match end. -/
def scanEnds : List Char → List ℕ
  | [] => []
  | [c] => if isSentPunct c then [1] else []
  | c :: d :: rest =>
    if isSentPunct c then
      if pyWs d then 2 :: (scanEnds rest).map (· + 2)
      else (scanEnds (d :: rest)).map (· + 1)
    else (scanEnds (d :: rest)).map (· + 1)

/-- The alternatives of the `_ABBREVIATIONS` regex (`llm_client.py` lines
11-15). -/
def ABBREVIATIONS : List String :=
  ["Mr", "Mrs", "Ms", "Dr", "Prof", "Sr", "Jr", "St", "Ave", "Blvd", "Gen",
   "Gov", "Sgt", "Cpl", "Pvt", "Rev", "Hon", "Inc", "Corp", "Ltd", "Co",
   "vs", "etc", "approx", "dept", "est", "vol", "U.S", "U.K", "E.U", "e.g",
   "i.e"]

/-- ASCII lowercasing (the `re.IGNORECASE` comparison). -/
def asciiLowerChar (c : Char) : Char :=
  if 'A' ≤ c ∧ c ≤ 'Z' then Char.ofNat (c.toNat + 32) else c

/-- Word characters for the regex `\b` (ASCII fragment of `\w`). -/
def isWordChar (c : Char) : Bool := c.isAlphanum || c == '_'

/-- `_ABBREVIATIONS.search(candidate)`: the candidate ends with
`abbreviation + "."` (case-insensitively) at a word boundary. -/
def abbrev_search (cand : List Char) : Bool :=
  let lc := cand.map asciiLowerChar
  ABBREVIATIONS.any (fun a =>
    let pat := a.toList.map asciiLowerChar ++ ['.']
    pat.isSuffixOf lc &&
      (decide (lc.length = pat.length) ||
        (match lc.get? (lc.length - pat.length - 1) with
         | some c => !isWordChar c
         | none => true)))

/-- `sentences[-1] = sentences[-1] + " " + candidate`. -/
def updateLast : List (List Char) → List Char → List (List Char)
  | [], _ => []
  | [s], cand => [s ++ ' ' :: cand]
  | s :: t :: rest, cand => s :: updateLast (t :: rest) cand

/-- The `for m in _SENTENCE_END.finditer(text)` loop of `split_sentences`,
over the list of match ends, carrying `sentences` and `start`:
an abbreviation candidate is skipped without advancing `start`; a short
candidate is merged into the previous sentence; otherwise the candidate is
appended; `start` advances to the match end on acceptance. -/
def processEnds (text : List Char) (mcl : ℕ) :
    List ℕ → List (List Char) → ℕ → List (List Char) × ℕ
  | [], sentences, start => (sentences, start)
  | e :: es, sentences, start =>
    let candidate := pyStrip ((text.take e).drop start)
    if abbrev_search candidate then processEnds text mcl es sentences start
    else if candidate = [] then processEnds text mcl es sentences start
    else if candidate.length < mcl ∧ sentences ≠ [] then
      processEnds text mcl es (updateLast sentences candidate) e
    else processEnds text mcl es (sentences ++ [candidate]) e

/-- `split_sentences(text, min_chunk_len)` (`llm_client.py` lines 21-57);
the call sites all use the default `min_chunk_len = 10`. -/
def split_sentences (text : List Char) (mcl : ℕ := 10) : List (List Char) :=
  if pyStrip text = [] then []
  else
    let p := processEnds text mcl (scanEnds text) [] 0
    let remainder := pyStrip (text.drop p.2)
    let sentences :=
      if remainder = [] then p.1
      else if remainder.length < mcl ∧ p.1 ≠ [] then updateLast p.1 remainder
      else p.1 ++ [remainder]
    if sentences = [] then [pyStrip text] else sentences

/-- The whitespace-separated words of a character list (used to state
equality up to whitespace normalization). -/
def words : List Char → List (List Char)
  | [] => []
  | c :: cs =>
    if pyWs c then words cs
    else (c :: cs.takeWhile (fun d => !pyWs d)) :: words (cs.dropWhile (fun d => !pyWs d))
termination_by l => l.length
decreasing_by
  · exact Nat.lt_succ_of_le (Nat.le_refl _)
  · exact Nat.lt_succ_of_le (List.dropWhile_sublist _).length_le

/-- Python `" ".join(sentences)`. -/
def joinSpace : List (List Char) → List Char
  | [] => []
  | [s] => s
  | s :: t :: rest => s ++ ' ' :: joinSpace (t :: rest)

/-- Concatenated word lists of a list of sentences. -/
def wordsJoin (ss : List (List Char)) : List (List Char) := (ss.map words).flatten

/-- Whitespace normalization: collapse whitespace runs to single spaces and
trim both ends. -/
def normalizeWs (l : List Char) : List Char := joinSpace (words l)

/-- Does the list end with a whitespace character? -/
def endsWithWs (l : List Char) : Bool :=
  match l.getLast? with
  | some w => pyWs w
  | none => false

/-! ## Concrete selection scenario (spec section 8, scenario 1)

Agent A has 2 prior questions, relevance `0.8`, raised 1 s before the
selection; agent B has 0 prior questions, relevance `0.7`, raised at the
selection instant. -/

/-- Queue entry of agent A for the scenario. -/
def scenario_entry_A : QueueEntry :=
  { agent_id := "A",
    question := some { agent_id := "A", text := "question a",
                       relevance_score := 8 / 10 },
    raised_at := 99 }

/-- Queue entry of agent B for the scenario. -/
def scenario_entry_B : QueueEntry :=
  { agent_id := "B",
    question := some { agent_id := "B", text := "question b",
                       relevance_score := 7 / 10 },
    raised_at := 100 }

/-- Prior question counts for the scenario. -/
def scenario_total_questions : String → ℕ :=
  fun aid => if aid = "A" then 2 else 0

/-- Invariant of the `split_sentences` main loop: the words of the
accumulated sentences are exactly the words of the processed prefix, the
prefix boundary sits at a whitespace character (or at an end of the text),
every accumulated sentence is non-empty, and every sentence after the
first has at least `mcl` characters. -/
def SplitInv (text : List Char) (mcl : ℕ) (sentences : List (List Char))
    (start : ℕ) : Prop :=
  wordsJoin sentences = words (text.take start) ∧
  (sentences = [] ∧ start = 0 ∨ sentences ≠ []) ∧
  start ≤ text.length ∧
  (start = 0 ∨ start = text.length ∨ endsWithWs (text.take start) = true) ∧
  (∀ s ∈ sentences, s ≠ []) ∧
  (∀ s ∈ sentences.drop 1, mcl ≤ s.length)

/-! ## Theorems -/

/-- C5: the claim is that the cooldown check stops suppressing 15 s after
the last question.  On the code it does not: `_evaluate_should_ask`
compares the session-relative `elapsed` against the wall-clock
`_last_question_time`.  At the concrete failing input — session started at
wall clock 1000, agent called on at wall clock 1020, evaluation at wall
clock 1100 — 80 s ≥ 15 s have passed since the last question, yet the
check still suppresses; and on any wall-clock-style input (the last
question within `session_start + 15` seconds, i.e. for about fifty years
of epoch timestamps) the suppression never lifts. -/
theorem cooldown_check_never_expires :
    cooldown_suppresses 1100 1000 1020 = true ∧
    cooldown_secs ≤ (1100 : ℚ) - 1020 := by
  refine ⟨?_, by norm_num [cooldown_secs]⟩
  unfold cooldown_suppresses cooldown_secs
  norm_num

/-- C6: the claim is that `_generate_question` always returns a
`CandidateQuestion` whose `audio_urls` field holds the synthesized URLs.
On the code it cannot: the `CandidateQuestion` dataclass has no
`audio_urls` parameter, so the keyword arguments passed at
`agent_runner.py` lines 684-692 do not fit the generated `__init__` and
the construction raises `TypeError` on every invocation. -/
theorem generate_question_always_raises :
    dataclass_call_ok candidate_question_init_params
        generate_question_call_kwargs = false ∧
    "audio_urls" ∈ generate_question_call_kwargs ∧
    "audio_urls" ∉ candidate_question_init_params ∧
    ∀ aid text tc si au,
      generate_question_build_candidate aid text tc si au
        = Except.error PyErr.typeError := by
  refine ⟨by decide, by decide, by decide, ?_⟩
  intro aid text tc si au
  rfl

/-- C1: the claim is that `state == EXCHANGE ⇔ active_exchange ≠ null`
holds at every suspension point of the coordinator operations.  The
interleaving below breaks it: with exchange 1 active, the resolver runs
the synchronous head of `_resolve_exchange` (outcome stamped,
`active_exchange = None`, `state = RESOLVING`) and suspends in the
`exchange_resolved` emit; the moderator tick passes its guard (state is
`RESOLVING`, no cooldown stamp yet since `_last_exchange_resolved_at` is
still 0), selects the other queued agent and runs `_call_on_agent` up to
`active_exchange = exchange_2; state = EXCHANGE`; the resolver then
resumes and overwrites `state = PRESENTING` while `active_exchange` still
holds exchange 2 — the invariant is false at the resolver's next
suspension point (the `session_state` emit).  The invariant holds at every
earlier suspension point of the same trace, so the trace is a genuine
execution from an invariant-respecting state. -/
theorem exchange_invariant_race :
    CoordInv race_init.shared ∧
    CoordInv (res_step 100 race_init).shared ∧
    CoordInv (mod_step 101 2 (res_step 100 race_init)).shared ∧
    CoordInv (mod_step 102 2 (mod_step 101 2 (res_step 100 race_init))).shared ∧
    ¬ CoordInv race_trace.shared := by
  decide

/-- C2: `_resolve_exchange(e, o)` stamps `outcome := o` and `resolved_at`,
appends the resolved exchange to the owning agent's `exchanges` and to
`completed_exchanges`, clears `active_exchange`, ends in state
`PRESENTING`, and appends a non-empty `target_claim` to that agent's
`challenged_claims`, so the claim of every resolved exchange with a
non-empty target claim is a member of
`agent_contexts[e.agent_id].challenged_claims`. -/
theorem resolve_exchange_spec (ctx : SessionContext) (e : Exchange)
    (o : ExchangeOutcome) (now : ℚ) :
    (resolve_exchange ctx e o now).2.outcome = some o ∧
    (resolve_exchange ctx e o now).2.resolved_at = some now ∧
    ((resolve_exchange ctx e o now).1.get_agent_context e.agent_id).exchanges
      = (ctx.get_agent_context e.agent_id).exchanges
          ++ [(resolve_exchange ctx e o now).2] ∧
    (resolve_exchange ctx e o now).1.completed_exchanges
      = ctx.completed_exchanges ++ [(resolve_exchange ctx e o now).2] ∧
    (resolve_exchange ctx e o now).1.active_exchange = none ∧
    (resolve_exchange ctx e o now).1.state = SessionState.presenting ∧
    ∀ tc : String, e.target_claim = some tc → tc ≠ "" →
      ((resolve_exchange ctx e o now).1.get_agent_context
          e.agent_id).challenged_claims
        = (ctx.get_agent_context e.agent_id).challenged_claims ++ [tc] ∧
      tc ∈ ((resolve_exchange ctx e o now).1.get_agent_context
          e.agent_id).challenged_claims := by
  refine ⟨rfl, rfl, ?_, rfl, rfl, rfl, ?_⟩
  · simp [resolve_exchange, SessionContext.get_agent_context]
  · intro tc htc hne
    constructor
    · simp [resolve_exchange, SessionContext.get_agent_context, htc, hne]
    · simp [resolve_exchange, SessionContext.get_agent_context, htc, hne]

/-- Witness for `resolve_exchange_spec` at a concrete resolved exchange
with target claim `"q1"`. -/
theorem resolve_exchange_spec_witness :
    "q1" ∈ ((resolve_exchange { session_id := "s" }
        { id := "e1", agent_id := "skeptic", target_claim := some "q1" }
        ExchangeOutcome.satisfied 50).1.get_agent_context
          "skeptic").challenged_claims :=
  ((resolve_exchange_spec { session_id := "s" }
      { id := "e1", agent_id := "skeptic", target_claim := some "q1" }
      ExchangeOutcome.satisfied 50).2.2.2.2.2.2 "q1" rfl
      (by decide)).2

theorem unique_on_hand_raised {q : List QueueEntry} (aid : String)
    (c : Option CandidateQuestion) (now : ℚ) (h : UniquePerAgent q) :
    UniquePerAgent (on_hand_raised q aid c now) := by
  unfold on_hand_raised
  by_cases h1 : aid = ""
  · simpa [h1] using h
  by_cases h2 : q.any (fun en => en.agent_id == aid) = true
  · simpa [h1, h2] using h
  · intro a
    rw [if_neg h1, if_neg h2, List.countP_append]
    have hsingle : List.countP (fun en => en.agent_id == a)
        [(⟨aid, c, now⟩ : QueueEntry)] = if aid = a then 1 else 0 := by
      by_cases ha : aid = a <;> simp [List.countP_cons, ha]
    rw [hsingle]
    by_cases ha : aid = a
    · have hzero : List.countP (fun en => en.agent_id == a) q = 0 := by
        rw [List.countP_eq_zero]
        intro en hen hcontra
        refine h2 (List.any_eq_true.mpr ⟨en, hen, ?_⟩)
        rw [ha]
        exact hcontra
      simp [ha, hzero]
    · simpa [ha] using h a

theorem unique_on_hand_lowered {q : List QueueEntry} (aid : String)
    (h : UniquePerAgent q) : UniquePerAgent (on_hand_lowered q aid) := by
  unfold on_hand_lowered
  by_cases h1 : aid = ""
  · simpa [h1] using h
  · intro a
    simp only [h1, if_false, if_neg]
    exact le_trans ((List.filter_sublist q).countP_le _) (h a)

theorem select_rest_sublist {tq : String → ℕ} {now : ℚ}
    {q rest : List QueueEntry} {sel : QueueEntry}
    (h : select_next_from_queue tq now q = some (sel, rest)) :
    List.Sublist rest q := by
  match q with
  | [] => simp [select_next_from_queue] at h
  | [x] =>
    simp only [select_next_from_queue, Option.some.injEq, Prod.mk.injEq] at h
    rw [← h.2]
    exact List.nil_sublist _
  | a :: b :: t =>
    simp only [select_next_from_queue, Option.some.injEq, Prod.mk.injEq] at h
    rw [← h.2]
    exact List.eraseIdx_sublist _ _

theorem unique_select {tq : String → ℕ} {now : ℚ}
    {q rest : List QueueEntry} {sel : QueueEntry}
    (h : select_next_from_queue tq now q = some (sel, rest))
    (hq : UniquePerAgent q) : UniquePerAgent rest :=
  fun a => le_trans ((select_rest_sublist h).countP_le _) (hq a)

/-- C8: a `HAND_RAISED` event for an already-queued agent leaves the queue
unchanged; a `HAND_LOWERED` event for an absent agent leaves it unchanged,
and a repeated `HAND_LOWERED` is a no-op; consequently every queue
reachable through the queue operations holds at most one entry per
agent. -/
theorem hand_raise_queue_props :
    (∀ (q : List QueueEntry) (aid : String) (c : Option CandidateQuestion)
        (now : ℚ), q.any (fun en => en.agent_id == aid) = true →
        on_hand_raised q aid c now = q) ∧
    (∀ (q : List QueueEntry) (aid : String),
        (∀ en ∈ q, en.agent_id ≠ aid) → on_hand_lowered q aid = q) ∧
    (∀ (q : List QueueEntry) (aid : String),
        on_hand_lowered (on_hand_lowered q aid) aid = on_hand_lowered q aid) ∧
    (∀ q : List QueueEntry, QueueReachable q → UniquePerAgent q) := by
  refine ⟨?_, ?_, ?_, ?_⟩
  · intro q aid c now h
    by_cases h1 : aid = "" <;> simp [on_hand_raised, h1, h]
  · intro q aid h
    by_cases h1 : aid = ""
    · simp [on_hand_lowered, h1]
    · simp only [on_hand_lowered, h1, if_false, if_neg]
      rw [List.filter_eq_self]
      intro en hen
      simpa [bne_iff_ne] using h en hen
  · intro q aid
    by_cases h1 : aid = "" <;>
      simp [on_hand_lowered, h1, List.filter_filter]
  · intro q hreach
    induction hreach with
    | init => intro a; simp [UniquePerAgent]
    | raise q aid c now _ ih => exact unique_on_hand_raised aid c now ih
    | lower q aid _ ih => exact unique_on_hand_lowered aid ih
    | select tq now q sel rest _ hsel ih => exact unique_select hsel ih

/-- Witness for `hand_raise_queue_props`: a repeated raise for agent `"a"`
is a no-op on the concrete queue containing `"a"`. -/
theorem hand_raise_queue_props_witness :
    on_hand_raised [⟨"a", none, 1⟩] "a" none 2 = [⟨"a", none, 1⟩] :=
  hand_raise_queue_props.1 [⟨"a", none, 1⟩] "a" none 2 (by decide)

theorem argmaxIdx_lt_length : ∀ (l : List ℚ), l ≠ [] → argmaxIdx l < l.length := by
  intro l
  induction l with
  | nil => simp
  | cons x xs ih =>
    intro _
    unfold argmaxIdx
    cases hx : xs[argmaxIdx xs]? with
    | none => simp
    | some y =>
      by_cases hlt : x < y
      · have hxs : xs ≠ [] := by
          rintro rfl
          simp at hx
        simp only [hlt, if_true, if_pos, List.length_cons]
        exact Nat.succ_lt_succ (ih hxs)
      · simp [hlt]

theorem argmaxIdx_spec :
    ∀ (l : List ℚ), ∀ y ∈ l, ∀ m, l[argmaxIdx l]? = some m → y ≤ m := by
  intro l
  induction l with
  | nil => simp
  | cons x xs ih =>
    intro z hz m hm
    unfold argmaxIdx at hm
    cases hx : xs[argmaxIdx xs]? with
    | none =>
      rw [hx] at hm
      simp only [List.getElem?_cons_zero, Option.some.injEq] at hm
      have hxs : xs = [] := by
        by_contra hne
        rw [List.getElem?_eq_getElem (argmaxIdx_lt_length xs hne)] at hx
        exact Option.noConfusion hx
      subst hxs
      simp only [List.mem_singleton] at hz
      subst hz
      exact le_of_eq hm
    | some y =>
      rw [hx] at hm
      rcases List.mem_cons.mp hz with rfl | hzmem
      · by_cases hlt : z < y
        · simp only [hlt, if_true, if_pos, List.getElem?_cons_succ, hx,
            Option.some.injEq] at hm
          subst hm
          exact le_of_lt hlt
        · simp only [hlt, if_false, if_neg, List.getElem?_cons_zero,
            Option.some.injEq] at hm
          exact le_of_eq hm
      · by_cases hlt : x < y
        · simp only [hlt, if_true, if_pos, List.getElem?_cons_succ, hx,
            Option.some.injEq] at hm
          subst hm
          exact ih z hzmem y hx
        · simp only [hlt, if_false, if_neg, List.getElem?_cons_zero,
            Option.some.injEq] at hm
          subst hm
          exact le_trans (ih z hzmem y hx) (le_of_not_lt hlt)

theorem perm_get_cons_eraseIdx :
    ∀ (l : List QueueEntry) (i : ℕ) (h : i < l.length),
      List.Perm l (l.get ⟨i, h⟩ :: l.eraseIdx i) := by
  intro l
  induction l with
  | nil => intro i h; simp at h
  | cons x xs ih =>
    intro i h
    match i with
    | 0 => exact List.Perm.refl _
    | Nat.succ j =>
      have hj : j < xs.length := Nat.lt_of_succ_lt_succ h
      show List.Perm (x :: xs) (xs.get ⟨j, hj⟩ :: x :: xs.eraseIdx j)
      exact List.Perm.trans (List.Perm.cons x (ih j hj))
        (List.Perm.swap (xs.get ⟨j, hj⟩) x (xs.eraseIdx j))

/-- C3: `_select_next_from_queue` returns `None` on an empty queue, pops
the single entry of a one-entry queue, and on a queue of two or more
entries removes and returns an entry maximizing
`relevance − 0.3·total_questions + 1/(now − raised_at + 1)`; in the
concrete scenario (A: 2 prior questions, relevance 0.8, raised 1 s
earlier; B: no prior questions, relevance 0.7) agent B is selected. -/
theorem select_next_from_queue_props :
    (∀ (tq : String → ℕ) (now : ℚ),
        select_next_from_queue tq now [] = none) ∧
    (∀ (tq : String → ℕ) (now : ℚ) (x : QueueEntry),
        select_next_from_queue tq now [x] = some (x, [])) ∧
    (∀ (tq : String → ℕ) (now : ℚ) (q : List QueueEntry), 2 ≤ q.length →
        ∃ sel rest, select_next_from_queue tq now q = some (sel, rest) ∧
          sel ∈ q ∧ List.Perm q (sel :: rest) ∧
          ∀ en ∈ q, queue_score tq now en ≤ queue_score tq now sel) ∧
    select_next_from_queue scenario_total_questions 100
        [scenario_entry_A, scenario_entry_B]
      = some (scenario_entry_B, [scenario_entry_A]) := by
  have hA : queue_score scenario_total_questions 100 scenario_entry_A
      = 7 / 10 := by
    norm_num [queue_score, scenario_entry_A, scenario_total_questions]
  have hB : queue_score scenario_total_questions 100 scenario_entry_B
      = 17 / 10 := by
    unfold queue_score scenario_entry_B scenario_total_questions
    rw [if_neg (by decide : ¬("B" = "A"))]
    norm_num
  have hmap : List.map (queue_score scenario_total_questions 100)
      [scenario_entry_A, scenario_entry_B] = [7 / 10, 17 / 10] := by
    rw [List.map_cons, List.map_cons, List.map_nil, hA, hB]
  have h1 : argmaxIdx [(17 : ℚ) / 10] = 0 := rfl
  have h2 : argmaxIdx [(7 : ℚ) / 10, 17 / 10] = 1 := by
    unfold argmaxIdx
    rw [h1]
    norm_num
  refine ⟨fun tq now => rfl, fun tq now x => rfl, ?_, ?_⟩
  swap
  · show some ([scenario_entry_A, scenario_entry_B].getD
        (argmaxIdx (List.map (queue_score scenario_total_questions 100)
          [scenario_entry_A, scenario_entry_B])) default,
        [scenario_entry_A, scenario_entry_B].eraseIdx
          (argmaxIdx (List.map (queue_score scenario_total_questions 100)
            [scenario_entry_A, scenario_entry_B]))) = _
    rw [hmap, h2]
    rfl
  intro tq now q hlen
  cases q with
  | nil => simp at hlen
  | cons a q1 =>
  cases q1 with
  | nil => norm_num at hlen
  | cons b t =>
    have hi : argmaxIdx ((a :: b :: t).map (queue_score tq now))
        < (a :: b :: t).length := by
      have h1 : (a :: b :: t).map (queue_score tq now) ≠ [] := by simp
      simpa using argmaxIdx_lt_length _ h1
    have hi' : argmaxIdx ((a :: b :: t).map (queue_score tq now))
        < ((a :: b :: t).map (queue_score tq now)).length := by
      simpa using hi
    refine ⟨(a :: b :: t).get ⟨argmaxIdx ((a :: b :: t).map (queue_score tq now)),
      hi⟩, (a :: b :: t).eraseIdx
        (argmaxIdx ((a :: b :: t).map (queue_score tq now))), ?_, ?_, ?_, ?_⟩
    · show some ((a :: b :: t).getD
          (argmaxIdx ((a :: b :: t).map (queue_score tq now))) default,
          (a :: b :: t).eraseIdx
            (argmaxIdx ((a :: b :: t).map (queue_score tq now)))) = _
      rw [List.getD_eq_getElem?_getD, List.getElem?_eq_getElem hi,
        List.get_eq_getElem]
      rfl
    · exact List.get_mem _ _ _
    · exact perm_get_cons_eraseIdx _ _ hi
    · intro en hen
      have h1 : queue_score tq now en
          ∈ (a :: b :: t).map (queue_score tq now) :=
        List.mem_map_of_mem _ hen
      have hm : ((a :: b :: t).map
            (queue_score tq now))[argmaxIdx
              ((a :: b :: t).map (queue_score tq now))]?
          = some (queue_score tq now ((a :: b :: t).get
              ⟨argmaxIdx ((a :: b :: t).map (queue_score tq now)), hi⟩)) := by
        rw [List.getElem?_eq_getElem hi', List.getElem_map,
          List.get_eq_getElem]
      exact argmaxIdx_spec _ _ h1 _ hm

/-- Witness for `select_next_from_queue_props` at the concrete two-entry
scenario queue. -/
theorem select_next_from_queue_props_witness :
    ∃ sel rest,
      select_next_from_queue scenario_total_questions 100
          [scenario_entry_A, scenario_entry_B] = some (sel, rest) ∧
      sel ∈ [scenario_entry_A, scenario_entry_B] ∧
      List.Perm [scenario_entry_A, scenario_entry_B] (sel :: rest) ∧
      ∀ en ∈ [scenario_entry_A, scenario_entry_B],
        queue_score scenario_total_questions 100 en
          ≤ queue_score scenario_total_questions 100 sel :=
  select_next_from_queue_props.2.2.1 scenario_total_questions 100
    [scenario_entry_A, scenario_entry_B] (by decide)

theorem rmsGt_speech_not_silence {frame : List ℤ}
    (h : rmsGt frame RMS_SPEECH_THRESHOLD = true) :
    rmsLt frame RMS_SILENCE_THRESHOLD = false := by
  unfold rmsGt RMS_SPEECH_THRESHOLD at h
  unfold rmsLt RMS_SILENCE_THRESHOLD
  simp only [Bool.and_eq_true, decide_eq_true_eq] at h
  obtain ⟨hn, hgt⟩ := h
  simp only [Bool.or_eq_false_iff, decide_eq_false_iff_not]
  have hcast : (0 : ℤ) ≤ (frame.length : ℤ) := Int.natCast_nonneg _
  constructor
  · omega
  · have hmono : (300 : ℤ) ^ 2 * frame.length ≤ (500 : ℤ) ^ 2 * frame.length :=
      mul_le_mul_of_nonneg_right (by norm_num) hcast
    intro hlt
    have : ((500 : ℕ) : ℤ) ^ 2 * frame.length < (300 : ℤ) ^ 2 * frame.length :=
      lt_trans hgt hlt
    norm_num at this
    omega

/-- C7: both STT backends implement the same VAD step function, and that
function realizes the claimed machine: in silence a frame with rms at most
500 is dropped, a frame with rms above 500 starts the activity and is
forwarded; while speaking every frame is forwarded, a frame with rms below
300 increments the silence counter and any other frame resets it, and the
eighth consecutive silent frame ends the activity and returns to silence
with the counter reset. -/
theorem vad_backends_agree_and_step :
    (∀ (st : VadState) (frame : List ℤ),
        live_send_audio_vad st frame = whisper_send_audio_vad st frame) ∧
    (∀ (c : ℕ) (frame : List ℤ),
        rmsGt frame RMS_SPEECH_THRESHOLD = false →
        live_send_audio_vad ⟨false, c⟩ frame = (⟨false, c⟩, [])) ∧
    (∀ (c : ℕ) (frame : List ℤ),
        rmsGt frame RMS_SPEECH_THRESHOLD = true →
        live_send_audio_vad ⟨false, c⟩ frame
          = (⟨true, 0⟩, [VadAction.activity_start, VadAction.forward])) ∧
    (∀ (c : ℕ) (frame : List ℤ),
        rmsLt frame RMS_SILENCE_THRESHOLD = true → c + 1 < SILENCE_CHUNKS_FOR_END →
        live_send_audio_vad ⟨true, c⟩ frame
          = (⟨true, c + 1⟩, [VadAction.forward])) ∧
    (∀ (c : ℕ) (frame : List ℤ),
        rmsLt frame RMS_SILENCE_THRESHOLD = true → SILENCE_CHUNKS_FOR_END ≤ c + 1 →
        live_send_audio_vad ⟨true, c⟩ frame
          = (⟨false, 0⟩, [VadAction.forward, VadAction.activity_end])) ∧
    (∀ (c : ℕ) (frame : List ℤ),
        rmsLt frame RMS_SILENCE_THRESHOLD = false →
        live_send_audio_vad ⟨true, c⟩ frame
          = (⟨true, 0⟩, [VadAction.forward])) := by
  refine ⟨?_, ?_, ?_, ?_, ?_, ?_⟩
  · intro st frame
    unfold live_send_audio_vad whisper_send_audio_vad vad_speaking_phase
    by_cases hs : st.speaking = false
    · by_cases hg : rmsGt frame RMS_SPEECH_THRESHOLD = true
      · simp [hs, hg, rmsGt_speech_not_silence hg]
      · simp [hs, hg]
    · simp [hs]
  · intro c frame hg
    simp [live_send_audio_vad, hg]
  · intro c frame hg
    simp [live_send_audio_vad, vad_speaking_phase, hg,
      rmsGt_speech_not_silence hg]
  · intro c frame hl hc
    simp [live_send_audio_vad, vad_speaking_phase, hl, Nat.not_le.mpr hc]
  · intro c frame hl hc
    simp [live_send_audio_vad, vad_speaking_phase, hl, hc]
  · intro c frame hl
    simp [live_send_audio_vad, vad_speaking_phase, hl]

/-- Witness for `vad_backends_agree_and_step`: a loud frame (one sample of
amplitude 1000) starts the activity from silence, and a quiet frame (one
zero sample) after seven silent frames ends it. -/
theorem vad_backends_agree_and_step_witness :
    live_send_audio_vad ⟨false, 0⟩ [1000]
      = (⟨true, 0⟩, [VadAction.activity_start, VadAction.forward]) ∧
    live_send_audio_vad ⟨true, 7⟩ [0]
      = (⟨false, 0⟩, [VadAction.forward, VadAction.activity_end]) :=
  ⟨vad_backends_agree_and_step.2.2.1 0 [1000] (by decide),
   vad_backends_agree_and_step.2.2.2.2.1 7 [0] (by decide) (by decide)⟩

/-- C4: after the presenter turn is recorded: reaching the per-intensity
turn limit (`friendly`/`moderate`/`adversarial` allow 2/3/4 presenter
turns) resolves the exchange `TURN_LIMIT` with no LLM evaluation;
otherwise the follow-up assessment runs under the 20-second timeout, and a
`None` result, a timeout or an exception resolves `SATISFIED`, while a
follow-up appends an agent turn and restarts the exchange timer; inside
the assessment, an LLM failure, a `SATISFIED` verdict or an empty
`follow_up` all yield the `None` result, and a `FOLLOW_UP`/`ESCALATE`
verdict with non-empty `follow_up` yields the follow-up text. -/
theorem exchange_assessment_props :
    turn_limits "friendly" = 2 ∧ turn_limits "moderate" = 3 ∧
    turn_limits "adversarial" = 4 ∧ exchange_assessment_timeout_secs = 20 ∧
    (∀ (e : Exchange) (r intensity : String) (re : Bool)
        (call : AssessmentCall) (now : ℚ),
      turn_limits intensity ≤ (Exchange.presenter_turn_count
          { e with turns := e.turns ++ [⟨"presenter", r, now⟩] }) →
      run_exchange_assessment e r intensity re call now
        = { turns := e.turns ++ [⟨"presenter", r, now⟩],
            resolution := some ExchangeOutcome.turn_limit,
            llm_called := false, timer_restarted := false }) ∧
    (∀ (e : Exchange) (r intensity : String) (call : AssessmentCall) (now : ℚ),
      (Exchange.presenter_turn_count
          { e with turns := e.turns ++ [⟨"presenter", r, now⟩] })
        < turn_limits intensity →
      (call = AssessmentCall.times_out ∨ call = AssessmentCall.raises ∨
        call = AssessmentCall.returns none) →
      (run_exchange_assessment e r intensity true call now).resolution
          = some ExchangeOutcome.satisfied ∧
      (run_exchange_assessment e r intensity true call now).timer_restarted
          = false) ∧
    (∀ (e : Exchange) (r intensity : String) (fu : FollowUpResult) (now : ℚ),
      (Exchange.presenter_turn_count
          { e with turns := e.turns ++ [⟨"presenter", r, now⟩] })
        < turn_limits intensity →
      run_exchange_assessment e r intensity true
          (AssessmentCall.returns (some fu)) now
        = { turns := e.turns ++ [⟨"presenter", r, now⟩]
              ++ [⟨"agent", fu.text, now⟩],
            resolution := none, llm_called := true,
            timer_restarted := true }) ∧
    (∀ pe : PyErr, handle_exchange_follow_up (Except.error pe) = none) ∧
    (∀ ev : EvalVerdict, pyUpper (ev.verdict.getD "SATISFIED") = "SATISFIED" →
      handle_exchange_follow_up (Except.ok ev) = none) ∧
    (∀ ev : EvalVerdict,
      (pyUpper (ev.verdict.getD "SATISFIED") = "FOLLOW_UP" ∨
        pyUpper (ev.verdict.getD "SATISFIED") = "ESCALATE") →
      ev.follow_up.getD "" = "" →
      handle_exchange_follow_up (Except.ok ev) = none) ∧
    (∀ ev : EvalVerdict,
      (pyUpper (ev.verdict.getD "SATISFIED") = "FOLLOW_UP" ∨
        pyUpper (ev.verdict.getD "SATISFIED") = "ESCALATE") →
      ev.follow_up.getD "" ≠ "" →
      handle_exchange_follow_up (Except.ok ev)
        = some { text := ev.follow_up.getD "",
                 reasoning := ev.reasoning.getD "" }) := by
  refine ⟨rfl, rfl, rfl, rfl, ?_, ?_, ?_, ?_, ?_, ?_, ?_⟩
  · intro e r intensity re call now h
    simp only [run_exchange_assessment]
    rw [if_pos h]
  · intro e r intensity call now h hcall
    have hnot : ¬ (turn_limits intensity ≤ Exchange.presenter_turn_count
        { e with turns := e.turns ++ [⟨"presenter", r, now⟩] }) :=
      Nat.not_le.mpr h
    rcases hcall with rfl | rfl | rfl <;>
      · simp only [run_exchange_assessment]
        rw [if_neg hnot]
        simp
  · intro e r intensity fu now h
    have hnot : ¬ (turn_limits intensity ≤ Exchange.presenter_turn_count
        { e with turns := e.turns ++ [⟨"presenter", r, now⟩] }) :=
      Nat.not_le.mpr h
    simp only [run_exchange_assessment]
    rw [if_neg hnot]
    simp
  · intro pe
    rfl
  · intro ev hv
    simp [handle_exchange_follow_up, hv]
  · intro ev hv hfu
    rcases hv with hv | hv <;> simp [handle_exchange_follow_up, hv, hfu]
  · intro ev hv hfu
    rcases hv with hv | hv <;> simp [handle_exchange_follow_up, hv, hfu]

/-- Witness for `exchange_assessment_props`: a concrete moderate-intensity
exchange at its third presenter turn resolves `TURN_LIMIT` without calling
the LLM, and a `FOLLOW_UP` verdict with text produces a follow-up. -/
theorem exchange_assessment_props_witness :
    run_exchange_assessment
        { id := "e1", agent_id := "skeptic",
          turns := [⟨"agent", "q", 0⟩, ⟨"presenter", "a1", 1⟩,
            ⟨"agent", "f1", 2⟩, ⟨"presenter", "a2", 3⟩] }
        "a3" "moderate" true (AssessmentCall.returns none) 4
      = { turns := [⟨"agent", "q", 0⟩, ⟨"presenter", "a1", 1⟩,
            ⟨"agent", "f1", 2⟩, ⟨"presenter", "a2", 3⟩,
            ⟨"presenter", "a3", 4⟩],
          resolution := some ExchangeOutcome.turn_limit,
          llm_called := false, timer_restarted := false } ∧
    handle_exchange_follow_up (Except.ok
        { verdict := some "FOLLOW_UP", reasoning := some "weak answer",
          follow_up := some "what about churn?" })
      = some { text := "what about churn?", reasoning := "weak answer" } :=
  ⟨exchange_assessment_props.2.2.2.2.1
      { id := "e1", agent_id := "skeptic",
        turns := [⟨"agent", "q", 0⟩, ⟨"presenter", "a1", 1⟩,
          ⟨"agent", "f1", 2⟩, ⟨"presenter", "a2", 3⟩] }
      "a3" "moderate" true (AssessmentCall.returns none) 4 (by decide),
   exchange_assessment_props.2.2.2.2.2.2.2.2.2.2
      { verdict := some "FOLLOW_UP", reasoning := some "weak answer",
        follow_up := some "what about churn?" }
      (Or.inl (by decide)) (by decide)⟩

theorem words_nil : words [] = [] := by
  rw [words]

theorem words_cons_ws {c : Char} (cs : List Char) (h : pyWs c = true) :
    words (c :: cs) = words cs := by
  rw [words]
  simp [h]

theorem words_cons_not_ws {c : Char} (cs : List Char) (h : pyWs c = false) :
    words (c :: cs)
      = (c :: cs.takeWhile (fun d => !pyWs d))
          :: words (cs.dropWhile (fun d => !pyWs d)) := by
  rw [words]
  simp [h]

theorem takeWhile_append_keep {p : Char → Bool} :
    ∀ (l₁ : List Char), (∃ x ∈ l₁, p x = false) → ∀ l₂ : List Char,
      (l₁ ++ l₂).takeWhile p = l₁.takeWhile p ∧
      (l₁ ++ l₂).dropWhile p = l₁.dropWhile p ++ l₂ := by
  intro l₁
  induction l₁ with
  | nil =>
    rintro ⟨x, hx, _⟩
    cases hx
  | cons a t ih =>
    rintro ⟨x, hx, hpx⟩ l₂
    by_cases hpa : p a = true
    · have hxt : x ∈ t := by
        rcases List.mem_cons.mp hx with rfl | hmem
        · rw [hpa] at hpx
          cases hpx
        · exact hmem
      obtain ⟨h1, h2⟩ := ih ⟨x, hxt, hpx⟩ l₂
      constructor
      · rw [List.cons_append, List.takeWhile_cons, List.takeWhile_cons, hpa]
        simp [h1]
      · rw [List.cons_append, List.dropWhile_cons, List.dropWhile_cons, hpa]
        simp [h2]
    · constructor
      · rw [List.cons_append, List.takeWhile_cons, List.takeWhile_cons]
        simp [hpa]
      · rw [List.cons_append, List.dropWhile_cons, List.dropWhile_cons]
        simp [hpa]

theorem takeWhile_append_all {p : Char → Bool} :
    ∀ (l₁ : List Char), (∀ x ∈ l₁, p x = true) → ∀ l₂ : List Char,
      (l₁ ++ l₂).takeWhile p = l₁ ++ l₂.takeWhile p ∧
      (l₁ ++ l₂).dropWhile p = l₂.dropWhile p := by
  intro l₁
  induction l₁ with
  | nil =>
    intro _ l₂
    simp
  | cons a t ih =>
    intro h l₂
    have hpa := h a (List.mem_cons_self a t)
    obtain ⟨h1, h2⟩ := ih (fun x hx => h x (List.mem_cons_of_mem _ hx)) l₂
    constructor
    · rw [List.cons_append, List.takeWhile_cons, hpa]
      simp [h1]
    · rw [List.cons_append, List.dropWhile_cons, hpa]
      simp [h2]

theorem endsWithWs_concat (l : List Char) (w : Char) (h : pyWs w = true) :
    endsWithWs (l ++ [w]) = true := by
  unfold endsWithWs
  rw [List.getLast?_concat]
  exact h

theorem endsWithWs_cons {a : Char} {l : List Char} (h : l ≠ []) :
    endsWithWs (a :: l) = endsWithWs l := by
  unfold endsWithWs
  cases l with
  | nil => cases h rfl
  | cons b t => rw [List.getLast?_cons_cons]

theorem endsWithWs_append {l₁ l₂ : List Char} (h : l₂ ≠ []) :
    endsWithWs (l₁ ++ l₂) = endsWithWs l₂ := by
  unfold endsWithWs
  rw [List.getLast?_append_of_ne_nil _ h]

theorem exists_concat_of_endsWithWs :
    ∀ {l : List Char}, endsWithWs l = true →
      ∃ l' w, l = l' ++ [w] ∧ pyWs w = true := by
  intro l
  induction l with
  | nil => intro h; cases h
  | cons a t ih =>
    intro h
    cases t with
    | nil =>
      refine ⟨[], a, rfl, ?_⟩
      unfold endsWithWs at h
      simpa using h
    | cons b t2 =>
      have h2 : endsWithWs (b :: t2) = true := by
        unfold endsWithWs at h ⊢
        rwa [List.getLast?_cons_cons] at h
      obtain ⟨l', w, heq, hw⟩ := ih h2
      exact ⟨a :: l', w, by rw [List.cons_append, ← heq], hw⟩

theorem words_append_of_endsWithWs_aux :
    ∀ (n : ℕ) (a : List Char), a.length ≤ n →
      (a = [] ∨ endsWithWs a = true) → ∀ b : List Char,
      words (a ++ b) = words a ++ words b := by
  intro n
  induction n with
  | zero =>
    intro a ha _ b
    have h0 : a = [] := List.length_eq_zero.mp (Nat.le_zero.mp ha)
    subst h0
    rw [List.nil_append, words_nil, List.nil_append]
  | succ n ih =>
    intro a ha hews b
    cases a with
    | nil => rw [List.nil_append, words_nil, List.nil_append]
    | cons c a1 =>
      have ha1 : a1.length ≤ n := by
        rw [List.length_cons] at ha
        omega
      by_cases hc : pyWs c = true
      · rw [List.cons_append, words_cons_ws _ hc, words_cons_ws _ hc]
        refine ih a1 ha1 ?_ b
        rcases hews with h | h
        · exact absurd h (by simp)
        · cases a1 with
          | nil => exact Or.inl rfl
          | cons d t =>
            right
            rwa [endsWithWs_cons (by simp)] at h
      · have hcf : pyWs c = false := Bool.eq_false_iff.mpr hc
        rcases hews with h | h
        · exact absurd h (by simp)
        obtain ⟨l', w, heq, hw⟩ := exists_concat_of_endsWithWs h
        cases l' with
        | nil =>
          rw [List.nil_append] at heq
          injection heq with h1 h2
          subst h1
          rw [hw] at hcf
          cases hcf
        | cons x xs =>
          rw [List.cons_append] at heq
          injection heq with h1 h2
          have hwa1 : w ∈ a1 := by
            rw [h2]
            exact List.mem_append_right _ (List.mem_singleton.mpr rfl)
          have hwmem : ∃ y ∈ a1, (fun d => !pyWs d) y = false :=
            ⟨w, hwa1, by simp [hw]⟩
          obtain ⟨htake, hdrop⟩ := takeWhile_append_keep a1 hwmem b
          rw [List.cons_append, words_cons_not_ws _ hcf, words_cons_not_ws _ hcf,
            htake, hdrop]
          have hdne : a1.dropWhile (fun d => !pyWs d) ≠ [] := by
            rw [Ne, List.dropWhile_eq_nil_iff]
            push_neg
            exact ⟨w, hwa1, by simp [hw]⟩
          have hewsd : endsWithWs (a1.dropWhile (fun d => !pyWs d)) = true := by
            obtain ⟨t, ht⟩ := List.dropWhile_suffix (l := a1) (fun d => !pyWs d)
            have h3 : endsWithWs a1 = true := by
              rw [h2]
              exact endsWithWs_concat _ _ hw
            rw [← ht] at h3
            rwa [endsWithWs_append hdne] at h3
          have hdlen : (a1.dropWhile (fun d => !pyWs d)).length ≤ n :=
            le_trans (List.dropWhile_sublist _).length_le ha1
          rw [ih _ hdlen (Or.inr hewsd) b]
          rfl

theorem words_append_of_endsWithWs {a : List Char}
    (h : a = [] ∨ endsWithWs a = true) (b : List Char) :
    words (a ++ b) = words a ++ words b :=
  words_append_of_endsWithWs_aux a.length a le_rfl h b

theorem words_concat_ws_aux :
    ∀ (n : ℕ) (x : List Char), x.length ≤ n → ∀ (w : Char), pyWs w = true →
      words (x ++ [w]) = words x := by
  intro n
  induction n with
  | zero =>
    intro x hx w hw
    have h0 : x = [] := List.length_eq_zero.mp (Nat.le_zero.mp hx)
    subst h0
    rw [List.nil_append, words_cons_ws _ hw]
  | succ n ih =>
    intro x hx w hw
    cases x with
    | nil => rw [List.nil_append, words_cons_ws _ hw]
    | cons c x1 =>
      have hx1 : x1.length ≤ n := by
        rw [List.length_cons] at hx
        omega
      by_cases hc : pyWs c = true
      · rw [List.cons_append, words_cons_ws _ hc, words_cons_ws _ hc,
          ih x1 hx1 w hw]
      · have hcf : pyWs c = false := Bool.eq_false_iff.mpr hc
        by_cases hall : ∀ y ∈ x1, (fun d => !pyWs d) y = true
        · obtain ⟨h1, h2⟩ := takeWhile_append_all x1 hall [w]
          rw [List.cons_append, words_cons_not_ws _ hcf, words_cons_not_ws _ hcf,
            h1, h2]
          have hpw : (fun d => !pyWs d) w = false := by simp [hw]
          have htw : List.takeWhile (fun d => !pyWs d) [w] = [] := by
            rw [List.takeWhile_cons]
            simp [hpw]
          have hdw : List.dropWhile (fun d => !pyWs d) [w] = [w] := by
            rw [List.dropWhile_cons]
            simp [hpw]
          have htx : x1.takeWhile (fun d => !pyWs d) = x1 :=
            List.takeWhile_eq_self_iff.mpr (by simpa using hall)
          have hdx : x1.dropWhile (fun d => !pyWs d) = [] :=
            List.dropWhile_eq_nil_iff.mpr (by simpa using hall)
          rw [htw, hdw, htx, hdx, words_cons_ws _ hw, words_nil]
          simp
        · push_neg at hall
          obtain ⟨y, hy, hpy⟩ := hall
          obtain ⟨htake, hdrop⟩ :=
            takeWhile_append_keep (p := fun d => !pyWs d) x1
              ⟨y, hy, (Bool.eq_false_iff.mpr hpy : (!pyWs y) = false)⟩ [w]
          rw [List.cons_append, words_cons_not_ws _ hcf, words_cons_not_ws _ hcf,
            htake, hdrop]
          have hdlen : (x1.dropWhile (fun d => !pyWs d)).length ≤ n :=
            le_trans (List.dropWhile_sublist _).length_le hx1
          rw [ih _ hdlen w hw]

theorem words_concat_ws (x : List Char) {w : Char} (hw : pyWs w = true) :
    words (x ++ [w]) = words x :=
  words_concat_ws_aux x.length x le_rfl w hw

theorem words_append_allWs :
    ∀ (t : List Char), (∀ w ∈ t, pyWs w = true) → ∀ x : List Char,
      words (x ++ t) = words x := by
  intro t
  induction t with
  | nil =>
    intro _ x
    rw [List.append_nil]
  | cons w t1 ih =>
    intro h x
    have hw := h w (List.mem_cons_self w t1)
    have h1 : ∀ v ∈ t1, pyWs v = true :=
      fun v hv => h v (List.mem_cons_of_mem _ hv)
    have hassoc : x ++ w :: t1 = (x ++ [w]) ++ t1 := by simp
    rw [hassoc, ih h1 (x ++ [w]), words_concat_ws x hw]

theorem words_dropWhile_ws : ∀ (l : List Char), words (l.dropWhile pyWs) = words l := by
  intro l
  induction l with
  | nil => rw [List.dropWhile_nil]
  | cons c cs ih =>
    rw [List.dropWhile_cons]
    by_cases hc : pyWs c = true
    · rw [if_pos hc, ih, words_cons_ws _ hc]
    · rw [if_neg hc]

theorem words_pyStrip (l : List Char) : words (pyStrip l) = words l := by
  unfold pyStrip
  have hsplit : l.dropWhile pyWs
      = ((l.dropWhile pyWs).reverse.dropWhile pyWs).reverse
        ++ ((l.dropWhile pyWs).reverse.takeWhile pyWs).reverse := by
    conv_lhs =>
      rw [← List.reverse_reverse (l.dropWhile pyWs),
        ← List.takeWhile_append_dropWhile (p := pyWs)
          (l := (l.dropWhile pyWs).reverse)]
    rw [List.reverse_append]
  have hall : ∀ w ∈ ((l.dropWhile pyWs).reverse.takeWhile pyWs).reverse,
      pyWs w = true := by
    intro w hw
    exact List.mem_takeWhile_imp (List.mem_reverse.mp hw)
  calc words ((l.dropWhile pyWs).reverse.dropWhile pyWs).reverse
      = words (((l.dropWhile pyWs).reverse.dropWhile pyWs).reverse
          ++ ((l.dropWhile pyWs).reverse.takeWhile pyWs).reverse) :=
        (words_append_allWs _ hall _).symm
    _ = words (l.dropWhile pyWs) := by rw [← hsplit]
    _ = words l := words_dropWhile_ws l

theorem words_eq_nil_iff : ∀ (l : List Char),
    words l = [] ↔ ∀ c ∈ l, pyWs c = true := by
  intro l
  induction l with
  | nil => simp [words_nil]
  | cons c cs ih =>
    by_cases hc : pyWs c = true
    · rw [words_cons_ws _ hc, ih]
      constructor
      · intro h d hd
        rcases List.mem_cons.mp hd with rfl | hmem
        · exact hc
        · exact h d hmem
      · intro h d hd
        exact h d (List.mem_cons_of_mem _ hd)
    · rw [words_cons_not_ws _ (Bool.eq_false_iff.mpr hc)]
      constructor
      · intro h
        cases h
      · intro h
        exact absurd (h c (List.mem_cons_self c cs)) hc

theorem pyStrip_eq_nil_iff (l : List Char) :
    pyStrip l = [] ↔ ∀ c ∈ l, pyWs c = true := by
  constructor
  · intro h
    rw [← words_eq_nil_iff, ← words_pyStrip, h, words_nil]
  · intro h
    unfold pyStrip
    have h0 : l.dropWhile pyWs = [] := List.dropWhile_eq_nil_iff.mpr h
    rw [h0]
    rfl

theorem wordsJoin_nil : wordsJoin [] = [] := rfl

theorem wordsJoin_cons (s : List Char) (ss : List (List Char)) :
    wordsJoin (s :: ss) = words s ++ wordsJoin ss := by
  unfold wordsJoin
  rw [List.map_cons, List.flatten_cons]

theorem wordsJoin_append_single (ss : List (List Char)) (c : List Char) :
    wordsJoin (ss ++ [c]) = wordsJoin ss ++ words c := by
  unfold wordsJoin
  rw [List.map_append, List.flatten_append]
  simp

theorem updateLast_ne_nil {ss : List (List Char)} (h : ss ≠ [])
    (cand : List Char) : updateLast ss cand ≠ [] := by
  cases ss with
  | nil => cases h rfl
  | cons s t =>
    cases t with
    | nil => simp [updateLast]
    | cons u v => simp [updateLast]

theorem wordsJoin_updateLast :
    ∀ (ss : List (List Char)), ss ≠ [] → ∀ cand : List Char,
      wordsJoin (updateLast ss cand) = wordsJoin ss ++ words cand := by
  intro ss
  induction ss with
  | nil => intro h; cases h rfl
  | cons s t ih =>
    intro _ cand
    cases t with
    | nil =>
      show wordsJoin [s ++ ' ' :: cand] = wordsJoin [s] ++ words cand
      rw [wordsJoin_cons, wordsJoin_nil, wordsJoin_cons, wordsJoin_nil]
      have hsc : s ++ ' ' :: cand = (s ++ [' ']) ++ cand := by simp
      rw [hsc,
        words_append_of_endsWithWs
          (Or.inr (endsWithWs_concat s ' ' (by decide))) cand,
        words_concat_ws s (by decide)]
      simp
    | cons u v =>
      show wordsJoin (s :: updateLast (u :: v) cand) = _
      rw [wordsJoin_cons, ih (by simp) cand]
      simp [wordsJoin_cons]

theorem updateLast_nonempty :
    ∀ (ss : List (List Char)), (∀ s ∈ ss, s ≠ []) → ∀ (cand : List Char),
      ∀ s ∈ updateLast ss cand, s ≠ [] := by
  intro ss
  induction ss with
  | nil =>
    intro _ cand s hs
    cases hs
  | cons a t ih =>
    intro h cand s hs
    cases t with
    | nil =>
      simp only [updateLast, List.mem_singleton] at hs
      subst hs
      simp
    | cons u v =>
      simp only [updateLast] at hs
      rcases List.mem_cons.mp hs with rfl | hmem
      · exact h s (List.mem_cons_self s _)
      · exact ih (fun x hx => h x (List.mem_cons_of_mem _ hx)) cand s hmem

theorem updateLast_all_len :
    ∀ (ss : List (List Char)) (mcl : ℕ), (∀ s ∈ ss, mcl ≤ s.length) →
      ∀ (cand : List Char), ∀ s ∈ updateLast ss cand, mcl ≤ s.length := by
  intro ss
  induction ss with
  | nil =>
    intro mcl _ cand s hs
    cases hs
  | cons a t ih =>
    intro mcl h cand s hs
    cases t with
    | nil =>
      simp only [updateLast, List.mem_singleton] at hs
      subst hs
      have ha := h a (List.mem_cons_self a _)
      rw [List.length_append]
      omega
    | cons u v =>
      simp only [updateLast] at hs
      rcases List.mem_cons.mp hs with rfl | hmem
      · exact h s (List.mem_cons_self s _)
      · exact ih mcl (fun x hx => h x (List.mem_cons_of_mem _ hx)) cand s hmem

theorem updateLast_tail_len (ss : List (List Char)) (mcl : ℕ)
    (h : ∀ s ∈ ss.drop 1, mcl ≤ s.length) (cand : List Char) :
    ∀ s ∈ (updateLast ss cand).drop 1, mcl ≤ s.length := by
  cases ss with
  | nil =>
    intro s hs
    cases hs
  | cons a t =>
    cases t with
    | nil =>
      intro s hs
      simp [updateLast] at hs
    | cons u v =>
      intro s hs
      simp only [updateLast, List.drop_succ_cons, List.drop_zero] at hs
      exact updateLast_all_len (u :: v) mcl (by simpa using h) cand s hs

theorem scanEnds_shift (c : Char) (l : List Char)
    (hspec : ∀ x ∈ scanEnds l, 0 < x ∧ x ≤ l.length ∧
      (x = l.length ∨ endsWithWs (l.take x) = true))
    (hpw : List.Pairwise (· < ·) (scanEnds l)) :
    (∀ x ∈ (scanEnds l).map (· + 1), 0 < x ∧ x ≤ (c :: l).length ∧
      (x = (c :: l).length ∨ endsWithWs ((c :: l).take x) = true)) ∧
    List.Pairwise (· < ·) ((scanEnds l).map (· + 1)) := by
  constructor
  · intro x hx
    obtain ⟨y, hy, rfl⟩ := List.mem_map.mp hx
    obtain ⟨hy0, hyle, hybnd⟩ := hspec y hy
    refine ⟨by omega, by simp; omega, ?_⟩
    rcases hybnd with h | h
    · left
      simp [h]
    · right
      have htake : (c :: l).take (y + 1) = c :: l.take y := rfl
      rw [htake]
      have htlen : (l.take y).length = y := by
        rw [List.length_take]
        omega
      have htne : l.take y ≠ [] := by
        intro h0
        rw [h0] at htlen
        simp at htlen
        omega
      rw [endsWithWs_cons htne]
      exact h
  · rw [List.pairwise_map]
    exact hpw.imp (fun h => by omega)

theorem scanEnds_spec_aux :
    ∀ (n : ℕ) (cs : List Char), cs.length ≤ n →
      (∀ x ∈ scanEnds cs, 0 < x ∧ x ≤ cs.length ∧
        (x = cs.length ∨ endsWithWs (cs.take x) = true)) ∧
      List.Pairwise (· < ·) (scanEnds cs) := by
  intro n
  induction n with
  | zero =>
    intro cs h
    have h0 : cs = [] := List.length_eq_zero.mp (Nat.le_zero.mp h)
    subst h0
    exact ⟨fun x hx => absurd hx (by simp [scanEnds]), by simp [scanEnds]⟩
  | succ n ih =>
    intro cs hlen
    match cs with
    | [] => exact ⟨fun x hx => absurd hx (by simp [scanEnds]), by simp [scanEnds]⟩
    | [c] =>
      by_cases hp : isSentPunct c = true
      · have hdef : scanEnds [c] = [1] := by simp [scanEnds, hp]
        constructor
        · intro x hx
          rw [hdef, List.mem_singleton] at hx
          subst hx
          exact ⟨by norm_num, by simp, Or.inl (by simp)⟩
        · rw [hdef]
          simp
      · have hdef : scanEnds [c] = [] := by simp [scanEnds, hp]
        exact ⟨fun x hx => absurd hx (by simp [hdef]), by simp [hdef]⟩
    | c :: d :: rest =>
      have hrest : rest.length ≤ n := by
        simp only [List.length_cons] at hlen
        omega
      have hdrest : (d :: rest).length ≤ n := by
        simp only [List.length_cons] at hlen ⊢
        omega
      by_cases hp : isSentPunct c = true
      · by_cases hd : pyWs d = true
        · have hdef : scanEnds (c :: d :: rest)
              = 2 :: (scanEnds rest).map (· + 2) := by
            simp [scanEnds, hp, hd]
          obtain ⟨hspec, hpw⟩ := ih rest hrest
          constructor
          · intro x hx
            rw [hdef] at hx
            rcases List.mem_cons.mp hx with rfl | hmem
            · refine ⟨by norm_num, by simp, Or.inr ?_⟩
              have htake : (c :: d :: rest).take 2 = [c, d] := rfl
              rw [htake]
              unfold endsWithWs
              simpa using hd
            · obtain ⟨y, hy, rfl⟩ := List.mem_map.mp hmem
              obtain ⟨hy0, hyle, hybnd⟩ := hspec y hy
              refine ⟨by omega, by simp; omega, ?_⟩
              rcases hybnd with h | h
              · left
                simp [h]
              · right
                have htake : (c :: d :: rest).take (y + 2)
                    = c :: d :: rest.take y := rfl
                rw [htake]
                have htlen : (rest.take y).length = y := by
                  rw [List.length_take]
                  omega
                have htne : rest.take y ≠ [] := by
                  intro h0
                  rw [h0] at htlen
                  simp at htlen
                  omega
                rw [endsWithWs_cons (by simp), endsWithWs_cons htne]
                exact h
          · rw [hdef]
            refine List.Pairwise.cons ?_ ?_
            · intro x hx
              obtain ⟨y, hy, rfl⟩ := List.mem_map.mp hx
              have := (hspec y hy).1
              omega
            · rw [List.pairwise_map]
              exact hpw.imp (fun h => by omega)
        · have hdef : scanEnds (c :: d :: rest)
              = (scanEnds (d :: rest)).map (· + 1) := by
            simp [scanEnds, hp, hd]
          obtain ⟨hspec, hpw⟩ := ih (d :: rest) hdrest
          obtain ⟨h1, h2⟩ := scanEnds_shift c (d :: rest) hspec hpw
          rw [hdef]
          exact ⟨h1, h2⟩
      · have hdef : scanEnds (c :: d :: rest)
            = (scanEnds (d :: rest)).map (· + 1) := by
          simp [scanEnds, hp]
        obtain ⟨hspec, hpw⟩ := ih (d :: rest) hdrest
        obtain ⟨h1, h2⟩ := scanEnds_shift c (d :: rest) hspec hpw
        rw [hdef]
        exact ⟨h1, h2⟩

theorem scanEnds_spec (cs : List Char) :
    (∀ x ∈ scanEnds cs, 0 < x ∧ x ≤ cs.length ∧
      (x = cs.length ∨ endsWithWs (cs.take x) = true)) ∧
    List.Pairwise (· < ·) (scanEnds cs) :=
  scanEnds_spec_aux cs.length cs le_rfl

theorem drop_one_append_single {ss : List (List Char)} (h : ss ≠ [])
    (c : List Char) : (ss ++ [c]).drop 1 = ss.drop 1 ++ [c] := by
  cases ss with
  | nil => cases h rfl
  | cons a t => simp

theorem processEnds_inv (text : List Char) (mcl : ℕ) :
    ∀ (ends : List ℕ) (sentences : List (List Char)) (start : ℕ),
      (∀ x ∈ ends, start ≤ x ∧ 0 < x ∧ x ≤ text.length ∧
        (x = text.length ∨ endsWithWs (text.take x) = true)) →
      List.Pairwise (· < ·) ends →
      SplitInv text mcl sentences start →
      SplitInv text mcl (processEnds text mcl ends sentences start).1
        (processEnds text mcl ends sentences start).2 := by
  intro ends
  induction ends with
  | nil =>
    intro sentences start _ _ hinv
    exact hinv
  | cons e es ih =>
    intro sentences start hx hpw hinv
    obtain ⟨hse, he0, hele, hebnd⟩ := hx e (List.mem_cons_self e es)
    have hes : ∀ x ∈ es, e < x := fun x hx2 => (List.pairwise_cons.mp hpw).1 x hx2
    have hpes : List.Pairwise (· < ·) es := (List.pairwise_cons.mp hpw).2
    have hxes : ∀ x ∈ es, start ≤ x ∧ 0 < x ∧ x ≤ text.length ∧
        (x = text.length ∨ endsWithWs (text.take x) = true) := by
      intro x hx2
      obtain ⟨_, h2, h3, h4⟩ := hx x (List.mem_cons_of_mem _ hx2)
      exact ⟨le_trans hse (le_of_lt (hes x hx2)), h2, h3, h4⟩
    have hxes' : ∀ x ∈ es, e ≤ x ∧ 0 < x ∧ x ≤ text.length ∧
        (x = text.length ∨ endsWithWs (text.take x) = true) := by
      intro x hx2
      obtain ⟨_, h2, h3, h4⟩ := hx x (List.mem_cons_of_mem _ hx2)
      exact ⟨le_of_lt (hes x hx2), h2, h3, h4⟩
    simp only [processEnds]
    by_cases h1 : abbrev_search (pyStrip ((text.take e).drop start)) = true
    · rw [if_pos h1]
      exact ih sentences start hxes hpes hinv
    rw [if_neg h1]
    by_cases h2 : pyStrip ((text.take e).drop start) = []
    · rw [if_pos h2]
      exact ih sentences start hxes hpes hinv
    rw [if_neg h2]
    obtain ⟨hjoin, hzero, hstartle, hbnd, hne, htail⟩ := hinv
    have hstart_ne_len : ¬ start = text.length := by
      intro h0
      have hslice0 : (text.take e).drop start = [] := by
        apply List.length_eq_zero.mp
        rw [List.length_drop, List.length_take]
        omega
      exact h2 (by rw [hslice0]; rfl)
    have hslice : text.take e = text.take start ++ (text.take e).drop start := by
      conv_lhs => rw [← List.take_append_drop start (text.take e)]
      rw [List.take_take]
      have hmin : min start e = start := Nat.min_eq_left hse
      rw [hmin]
    have hwords_take_e : words (text.take e)
        = words (text.take start) ++ words ((text.take e).drop start) := by
      conv_lhs => rw [hslice]
      apply words_append_of_endsWithWs
      rcases hbnd with h0 | h0 | h0
      · left
        simp [h0]
      · exact absurd h0 hstart_ne_len
      · right
        exact h0
    have hjoin' : ∀ ss' : List (List Char),
        wordsJoin ss' = wordsJoin sentences
          ++ words (pyStrip ((text.take e).drop start)) →
        wordsJoin ss' = words (text.take e) := by
      intro ss' h
      rw [h, words_pyStrip, hjoin, ← hwords_take_e]
    have hbnd' : e = 0 ∨ e = text.length ∨ endsWithWs (text.take e) = true := by
      rcases hebnd with h0 | h0
      · exact Or.inr (Or.inl h0)
      · exact Or.inr (Or.inr h0)
    by_cases h3 : (pyStrip ((text.take e).drop start)).length < mcl ∧ sentences ≠ []
    · rw [if_pos h3]
      refine ih (updateLast sentences (pyStrip ((text.take e).drop start))) e
        hxes' hpes ⟨?_, ?_, hele, hbnd', ?_, ?_⟩
      · exact hjoin' _ (wordsJoin_updateLast sentences h3.2 _)
      · exact Or.inr (updateLast_ne_nil h3.2 _)
      · exact updateLast_nonempty sentences hne _
      · exact updateLast_tail_len sentences mcl htail _
    · rw [if_neg h3]
      refine ih (sentences ++ [pyStrip ((text.take e).drop start)]) e
        hxes' hpes ⟨?_, ?_, hele, hbnd', ?_, ?_⟩
      · exact hjoin' _ (wordsJoin_append_single sentences _)
      · exact Or.inr (by simp)
      · intro s hs
        rcases List.mem_append.mp hs with hmem | hmem
        · exact hne s hmem
        · rw [List.mem_singleton.mp hmem]
          exact h2
      · by_cases hss : sentences = []
        · subst hss
          intro s hs
          simp at hs
        · have hmcl : mcl ≤ (pyStrip ((text.take e).drop start)).length := by
            by_contra hlt
            exact h3 ⟨Nat.lt_of_not_le hlt, hss⟩
          intro s hs
          rw [drop_one_append_single hss] at hs
          rcases List.mem_append.mp hs with hmem | hmem
          · exact htail s hmem
          · rw [List.mem_singleton.mp hmem]
            exact hmcl

theorem words_joinSpace : ∀ (ss : List (List Char)),
    words (joinSpace ss) = wordsJoin ss := by
  intro ss
  induction ss with
  | nil => simp [joinSpace, wordsJoin_nil, words_nil]
  | cons s t ih =>
    cases t with
    | nil => simp [joinSpace, wordsJoin_cons, wordsJoin_nil]
    | cons u v =>
      show words (s ++ ' ' :: joinSpace (u :: v)) = _
      have hsc : s ++ ' ' :: joinSpace (u :: v)
          = (s ++ [' ']) ++ joinSpace (u :: v) := by simp
      rw [hsc,
        words_append_of_endsWithWs
          (Or.inr (endsWithWs_concat s ' ' (by decide))) _,
        words_concat_ws s (by decide), ih]
      simp [wordsJoin_cons]

theorem split_sentences_main (text : List Char) (mcl : ℕ) :
    wordsJoin (split_sentences text mcl) = words text ∧
    (split_sentences text mcl = [] ↔ pyStrip text = []) ∧
    (∀ s ∈ split_sentences text mcl, s ≠ []) ∧
    (∀ s ∈ (split_sentences text mcl).drop 1, mcl ≤ s.length) := by
  by_cases hstrip : pyStrip text = []
  · have hres : split_sentences text mcl = [] := by
      unfold split_sentences
      rw [if_pos hstrip]
    rw [hres]
    refine ⟨?_, by simp [hstrip], by simp, by simp⟩
    rw [wordsJoin_nil]
    symm
    rw [words_eq_nil_iff]
    exact (pyStrip_eq_nil_iff text).mp hstrip
  · have hinv0 : SplitInv text mcl [] 0 := by
      refine ⟨?_, Or.inl ⟨rfl, rfl⟩, Nat.zero_le _, Or.inl rfl, ?_, ?_⟩
      · rw [wordsJoin_nil, List.take_zero, words_nil]
      · intro s hs
        cases hs
      · intro s hs
        cases hs
    obtain ⟨hspec, hpw⟩ := scanEnds_spec text
    have hinv := processEnds_inv text mcl (scanEnds text) [] 0
      (fun x hx => ⟨Nat.zero_le x, (hspec x hx).1, (hspec x hx).2.1,
        (hspec x hx).2.2⟩) hpw hinv0
    set p := processEnds text mcl (scanEnds text) [] 0 with hpdef
    obtain ⟨hjoin, hzero, hstartle, hbnd, hne, htail⟩ := hinv
    have hsplit_all : words text
        = wordsJoin p.1 ++ words (text.drop p.2) := by
      rcases hbnd with h0 | h0 | h0
      · rw [h0] at hjoin ⊢
        rw [List.take_zero, words_nil] at hjoin
        rw [List.drop_zero, hjoin, List.nil_append]
      · have hdrop : text.drop p.2 = [] := by
          rw [h0, List.drop_length]
        rw [hdrop, words_nil, List.append_nil, hjoin, h0, List.take_length]
      · conv_lhs => rw [← List.take_append_drop p.2 text]
        rw [words_append_of_endsWithWs (Or.inr h0) _, hjoin]
    have hres : split_sentences text mcl =
        (if (if pyStrip (text.drop p.2) = [] then p.1
             else if (pyStrip (text.drop p.2)).length < mcl ∧ p.1 ≠ []
             then updateLast p.1 (pyStrip (text.drop p.2))
             else p.1 ++ [pyStrip (text.drop p.2)]) = []
         then [pyStrip text]
         else (if pyStrip (text.drop p.2) = [] then p.1
               else if (pyStrip (text.drop p.2)).length < mcl ∧ p.1 ≠ []
               then updateLast p.1 (pyStrip (text.drop p.2))
               else p.1 ++ [pyStrip (text.drop p.2)])) := by
      rw [split_sentences, if_neg hstrip]
    by_cases hrem : pyStrip (text.drop p.2) = []
    · rw [if_pos hrem] at hres
      have hwr : words (text.drop p.2) = [] :=
        (words_eq_nil_iff _).mpr ((pyStrip_eq_nil_iff _).mp hrem)
      by_cases hp1 : p.1 = []
      · rw [if_pos hp1] at hres
        rw [hres]
        refine ⟨?_, iff_of_false (by simp) hstrip, ?_, by simp⟩
        · rw [wordsJoin_cons, wordsJoin_nil, List.append_nil, words_pyStrip]
        · intro s hs
          rw [List.mem_singleton.mp hs]
          exact hstrip
      · rw [if_neg hp1] at hres
        rw [hres]
        refine ⟨?_, iff_of_false hp1 hstrip, hne, htail⟩
        rw [hsplit_all, hwr, List.append_nil]
    · rw [if_neg hrem] at hres
      by_cases hcond : (pyStrip (text.drop p.2)).length < mcl ∧ p.1 ≠ []
      · rw [if_pos hcond, if_neg (updateLast_ne_nil hcond.2 _)] at hres
        rw [hres]
        refine ⟨?_, iff_of_false (updateLast_ne_nil hcond.2 _) hstrip,
          updateLast_nonempty p.1 hne _, updateLast_tail_len p.1 mcl htail _⟩
        rw [wordsJoin_updateLast p.1 hcond.2 _, words_pyStrip, hsplit_all]
      · rw [if_neg hcond, if_neg (by simp)] at hres
        rw [hres]
        refine ⟨?_, iff_of_false (by simp) hstrip, ?_, ?_⟩
        · rw [wordsJoin_append_single, words_pyStrip, hsplit_all]
        · intro s hs
          rcases List.mem_append.mp hs with hmem | hmem
          · exact hne s hmem
          · rw [List.mem_singleton.mp hmem]
            exact hrem
        · by_cases hp1 : p.1 = []
          · rw [hp1]
            intro s hs
            simp at hs
          · have hmcl : mcl ≤ (pyStrip (text.drop p.2)).length := by
              by_contra hlt
              exact hcond ⟨Nat.lt_of_not_le hlt, hp1⟩
            intro s hs
            rw [drop_one_append_single hp1] at hs
            rcases List.mem_append.mp hs with hmem | hmem
            · exact htail s hmem
            · rw [List.mem_singleton.mp hmem]
              exact hmcl

theorem split_sentences_no_boundary (text : List Char) (mcl : ℕ)
    (h0 : scanEnds text = []) (h1 : pyStrip text ≠ []) :
    split_sentences text mcl = [pyStrip text] := by
  rw [split_sentences, if_neg h1, h0]
  show (if (if pyStrip (text.drop (processEnds text mcl [] [] 0).2) = []
        then (processEnds text mcl [] [] 0).1
        else if (pyStrip (text.drop (processEnds text mcl [] [] 0).2)).length
              < mcl ∧ (processEnds text mcl [] [] 0).1 ≠ []
        then updateLast (processEnds text mcl [] [] 0).1
          (pyStrip (text.drop (processEnds text mcl [] [] 0).2))
        else (processEnds text mcl [] [] 0).1
          ++ [pyStrip (text.drop (processEnds text mcl [] [] 0).2)]) = []
      then [pyStrip text]
      else (if pyStrip (text.drop (processEnds text mcl [] [] 0).2) = []
        then (processEnds text mcl [] [] 0).1
        else if (pyStrip (text.drop (processEnds text mcl [] [] 0).2)).length
              < mcl ∧ (processEnds text mcl [] [] 0).1 ≠ []
        then updateLast (processEnds text mcl [] [] 0).1
          (pyStrip (text.drop (processEnds text mcl [] [] 0).2))
        else (processEnds text mcl [] [] 0).1
          ++ [pyStrip (text.drop (processEnds text mcl [] [] 0).2)]))
      = [pyStrip text]
  have hpe : processEnds text mcl [] [] 0 = ([], 0) := rfl
  rw [hpe]
  simp only [List.drop_zero]
  rw [if_neg h1]
  rw [if_neg (by simp : ¬ ((pyStrip text).length < mcl ∧ ([] : List (List Char)) ≠ []))]
  rw [List.nil_append]
  rw [if_neg (by simp : ¬ ([pyStrip text] : List (List Char)) = [])]

/-- C9 counterexample: the claim says no returned sentence is shorter than
10 characters except when it is the only sentence, but a short FIRST
candidate is appended as its own sentence when nothing precedes it:
splitting `"Hi. This is a long sentence."` returns two sentences whose
first, `"Hi."`, has 3 characters. -/
theorem split_sentences_short_first_sentence :
    (split_sentences ("Hi. This is a long sentence.".toList)).length = 2 ∧
    ∃ s ∈ split_sentences ("Hi. This is a long sentence.".toList),
      s.length < 10 := by
  constructor
  · decide
  · exact ⟨"Hi.".toList, by decide, by decide⟩

/-- C9 (amended): joining the sentences returned by `split_sentences(t)`
with single spaces equals `t` up to whitespace normalization, and no
returned sentence OTHER THAN THE FIRST is shorter than 10 characters (the
first sentence may be short even when it is not the only one). -/
theorem split_sentences_round_trip :
    (∀ t : List Char,
      normalizeWs (joinSpace (split_sentences t)) = normalizeWs t) ∧
    (∀ t : List Char, ∀ s ∈ (split_sentences t).drop 1, 10 ≤ s.length) := by
  constructor
  · intro t
    unfold normalizeWs
    rw [words_joinSpace, (split_sentences_main t 10).1]
  · intro t
    exact (split_sentences_main t 10).2.2.2

/-- Witness for `split_sentences_round_trip`: the second sentence of a
concrete two-sentence split is at least 10 characters long. -/
theorem split_sentences_round_trip_witness :
    10 ≤ ("Good afternoon everyone.".toList).length :=
  split_sentences_round_trip.2
    ("Hello there. Good afternoon everyone.".toList)
    ("Good afternoon everyone.".toList) (by decide)

/-- C10: `split_sentences` is total (it is a Lean function), returns the
empty list exactly when the stripped input is empty, returns a non-empty
list of non-empty sentences on every input with a non-whitespace
character, and falls back to the singleton `[text.strip()]` when the text
has no sentence boundary. -/
theorem split_sentences_total :
    (∀ t : List Char, split_sentences t = [] ↔ pyStrip t = []) ∧
    (∀ t : List Char, pyStrip t ≠ [] →
      split_sentences t ≠ [] ∧ ∀ s ∈ split_sentences t, s ≠ []) ∧
    (∀ t : List Char, scanEnds t = [] → pyStrip t ≠ [] →
      split_sentences t = [pyStrip t]) := by
  refine ⟨fun t => (split_sentences_main t 10).2.1, ?_, ?_⟩
  · intro t h
    refine ⟨?_, (split_sentences_main t 10).2.2.1⟩
    intro h0
    exact h ((split_sentences_main t 10).2.1.mp h0)
  · intro t h0 h1
    exact split_sentences_no_boundary t 10 h0 h1

/-- Witness for `split_sentences_total`: a boundary-free text splits into
the singleton holding its stripped self. -/
theorem split_sentences_total_witness :
    split_sentences ("no boundary here".toList)
      = [pyStrip ("no boundary here".toList)] :=
  split_sentences_total.2.2 ("no boundary here".toList) (by decide) (by decide)

end Highstake
